import Mathlib

/-!
# Dynamic arrays of VTK: `vlIntArray` and `vtkAoSDataArrayTemplate`

A shallow embedding of `src/IntArray.cc` (the self-adjusting integer array
`vlIntArray`) and of the inline accessors of
`Common/Core/vtkAoSDataArrayTemplate.h`.

Modelling conventions.

* A C++ pointer to a heap block is a `Ptr`: either `null` or the list of the
  cells of the block it points to.  Reading or writing outside the block, or
  through `null`, is undefined behaviour in C++; the embedding makes every such
  operation return `none`, so a function returns `some` exactly when every
  memory access it performs is inside a block.
* `new T[n]` takes an explicit outcome `fresh`: `none` when the allocation
  fails (the code tests the result against `0`), and `some f` when it succeeds
  and cell `k` of the uninitialised block happens to hold `f k`.  A negative
  element count never yields a block.
* `int` and `vtkIdType` are mathematical integers: signed overflow is undefined
  in C++ and is not modelled.  Division is the truncating `Int.tdiv`.
* Where a claim is about the data members a call leaves behind after such an
  access, the call is also given in a form that follows the stray store
  (`InsertValueRaw`, `InsertNextValueRaw`): the members evolve as the
  statements say, and the cells of the block are untouched.
* `delete []` and the `Debug` trace output have no effect on the modelled
  state and are omitted.
* Objects live in a `Store` (address to object) where the source compares or
  aliases `this` and its argument (`operator=`, `operator+=`).
* `SetArray`, the reallocation of tuples and the destructor of
  `vtkAoSDataArrayTemplate` are declared in the header but defined elsewhere;
  the ownership of the buffer is modelled from the specification, in
  definitions marked as such.
-/

set_option linter.dupNamespace false

namespace VTK

/-! ## Memory blocks -/

/-- Pointer to the first cell of a heap block, or the null pointer. -/
inductive Ptr (α : Type) where
  | null : Ptr α
  | block (cells : List α) : Ptr α
  deriving DecidableEq, Repr

/-- Number of cells of the block behind a pointer (zero for the null pointer). -/
def Ptr.length {α : Type} : Ptr α → Nat
  | .null => 0
  | .block cells => cells.length

/-- The read `p[i]`; `none` when `p` is null or `i` is outside the block. -/
def Ptr.read {α : Type} : Ptr α → Int → Option α
  | .null, _ => none
  | .block cells, i => if 0 ≤ i then cells[i.toNat]? else none

/-- The write `p[i] = v`; `none` when `p` is null or `i` is outside the block. -/
def Ptr.write {α : Type} : Ptr α → Int → α → Option (Ptr α)
  | .null, _, _ => none
  | .block cells, i, v =>
    if 0 ≤ i ∧ i < (cells.length : Int) then some (.block (cells.set i.toNat v)) else none

/-- The write `p[i] = v` as the compiled code performs it, with no range check:
inside the block the cell is replaced and the second component is `true`;
outside the block, or through null, the store lands in memory that is not part
of the block (undefined behaviour, reported by `false`) and the cells of the
block are as before. -/
def Ptr.writeRaw {α : Type} (p : Ptr α) (i : Int) (v : α) : Ptr α × Bool :=
  match p.write i v with
  | some q => (q, true)
  | none => (p, false)

/-- The expression `new T[n]` with allocation outcome `fresh`. -/
def newArray {α : Type} (fresh : Option (Nat → α)) (n : Int) : Ptr α :=
  if n < 0 then .null
  else
    match fresh with
    | none => .null
    | some f => .block ((List.range n.toNat).map f)

/-- Element-by-element copy of `n` cells, `dst[di + k] = src[si + k]` for
`k = 0, ..., n - 1` in increasing order, between two distinct blocks: the body
of the `for` loops of `IntArray.cc` and of `std::copy`. -/
def copyCells {α : Type} (src : Ptr α) : Nat → Int → Int → Ptr α → Option (Ptr α)
  | 0, _, _, dst => some dst
  | n + 1, si, di, dst =>
    match src.read si with
    | none => none
    | some x =>
      match dst.write di x with
      | none => none
      | some dst1 => copyCells src n (si + 1) (di + 1) dst1

/-! ## `vlIntArray` (src/IntArray.cc) -/

/-- The data members of `vlIntArray`. -/
structure vlIntArray where
  Array : Ptr Int
  Size : Int
  MaxId : Int
  Extend : Int
  deriving DecidableEq, Repr

namespace vlIntArray

/-- The read `this->Array[k]`. -/
def elem (self : vlIntArray) (k : Int) : Option Int :=
  self.Array.read k

/-- `vlIntArray::Initialize(sz, ext)`; the second component is the returned
success code. -/
def Initialize (self : vlIntArray) (fresh : Option (Nat → Int)) (sz ext : Int) :
    vlIntArray × Int :=
  let s1 := { self with Size := if sz > 0 then sz else 1 }
  let s2 := { s1 with Array := newArray fresh sz }
  if s2.Array = .null then (s2, 0)
  else ({ s2 with Extend := if ext > 0 then ext else 1, MaxId := -1 }, 1)

/-- The constructor `vlIntArray::vlIntArray(const int sz, const int ext)`. -/
def vlIntArray (fresh : Option (Nat → Int)) (sz ext : Int) : VTK.vlIntArray :=
  { Size := if sz > 0 then sz else 1
    Array := newArray fresh sz
    Extend := if ext > 0 then ext else 1
    MaxId := -1 }

/-- The copy constructor `vlIntArray::vlIntArray(const vlIntArray& ia)`; its
loop runs over `i < this->MaxId`. -/
def vlIntArrayCopy (fresh : Option (Nat → Int)) (ia : VTK.vlIntArray) : Option VTK.vlIntArray :=
  match copyCells ia.Array ia.MaxId.toNat 0 0 (newArray fresh ia.Size) with
  | none => none
  | some arr => some { MaxId := ia.MaxId, Size := ia.Size, Extend := ia.Extend, Array := arr }

/-- `vlIntArray::Resize(sz)`: the private reallocation.  Returns the new state
and the returned pointer (null when the allocation failed); `none` when the
integer division is by zero or the copy loop leaves a block. -/
def Resize (self : VTK.vlIntArray) (fresh : Option (Nat → Int)) (sz : Int) :
    Option (VTK.vlIntArray × Ptr Int) :=
  if sz ≥ self.Size ∧ self.Extend = 0 then none
  else
    let newSize :=
      if sz ≥ self.Size then
        self.Size + self.Extend * (Int.tdiv (sz - self.Size) self.Extend + 1)
      else sz
    match newArray fresh newSize with
    | .null => some (self, .null)
    | .block cells =>
      match copyCells self.Array (min sz self.Size).toNat 0 0 (.block cells) with
      | none => none
      | some newArr => some ({ self with Size := newSize, Array := newArr }, newArr)

/-- `vlIntArray::InsertValue(id, i)`. -/
def InsertValue (self : VTK.vlIntArray) (fresh : Option (Nat → Int)) (id i : Int) :
    Option VTK.vlIntArray :=
  let resized :=
    if id ≥ self.Size then (Resize self fresh id).map Prod.fst else some self
  match resized with
  | none => none
  | some s1 =>
    match s1.Array.write id i with
    | none => none
    | some arr =>
      let s2 := { s1 with Array := arr }
      some (if id > s2.MaxId then { s2 with MaxId := id } else s2)

/-- `vlIntArray::InsertNextValue(i)`; the second component is the returned
index. -/
def InsertNextValue (self : VTK.vlIntArray) (fresh : Option (Nat → Int)) (i : Int) :
    Option (VTK.vlIntArray × Int) :=
  let s1 := { self with MaxId := self.MaxId + 1 }
  match InsertValue s1 fresh s1.MaxId i with
  | none => none
  | some s2 => some (s2, s2.MaxId)

/-- `vlIntArray::InsertValue(id, i)` followed through its write: the statements
of `InsertValue`, with the store `this->Array[id] = i` performed by
`Ptr.writeRaw`, so that the call returns the data members it leaves behind also
when that store is outside the block; the second component is `false` in that
case. -/
def InsertValueRaw (self : VTK.vlIntArray) (fresh : Option (Nat → Int)) (id i : Int) :
    Option (VTK.vlIntArray × Bool) :=
  let resized :=
    if id ≥ self.Size then (Resize self fresh id).map Prod.fst else some self
  match resized with
  | none => none
  | some s1 =>
    let w := s1.Array.writeRaw id i
    let s2 := { s1 with Array := w.1 }
    some (if id > s2.MaxId then { s2 with MaxId := id } else s2, w.2)

/-- `vlIntArray::InsertNextValue(i)` followed through its write, by way of
`InsertValueRaw`: the array left behind, the returned index, and whether the
store stayed inside the block. -/
def InsertNextValueRaw (self : VTK.vlIntArray) (fresh : Option (Nat → Int)) (i : Int) :
    Option (VTK.vlIntArray × Int × Bool) :=
  let s1 := { self with MaxId := self.MaxId + 1 }
  match InsertValueRaw s1 fresh s1.MaxId i with
  | none => none
  | some r => some (r.1, r.1.MaxId, r.2)

/-- `vlIntArray::Squeeze()`. -/
def Squeeze (self : VTK.vlIntArray) (fresh : Option (Nat → Int)) : Option VTK.vlIntArray :=
  (Resize self fresh (self.MaxId + 1)).map Prod.fst

/-- `vlIntArray::GetSize()`. -/
def GetSize (self : VTK.vlIntArray) : Int := self.Size

/-- `vlIntArray::GetMaxId()`. -/
def GetMaxId (self : VTK.vlIntArray) : Int := self.MaxId

/-- `vlIntArray::SetMaxId(id)`. -/
def SetMaxId (self : VTK.vlIntArray) (id : Int) : VTK.vlIntArray :=
  { self with MaxId := if id < self.Size then id else self.Size - 1 }

/-- `vlIntArray::GetArray()`. -/
def GetArray (self : VTK.vlIntArray) : Ptr Int := self.Array

/-- `vlIntArray::Reset()`. -/
def Reset (self : VTK.vlIntArray) : VTK.vlIntArray :=
  { self with MaxId := -1 }

/-- The backing block holds exactly `Size` cells. -/
def BlockOfSize (self : VTK.vlIntArray) : Prop :=
  self.Array ≠ .null ∧ (self.Array.length : Int) = self.Size

instance (self : VTK.vlIntArray) : Decidable (BlockOfSize self) :=
  inferInstanceAs (Decidable (self.Array ≠ .null ∧ (self.Array.length : Int) = self.Size))

end vlIntArray

/-! ## Objects at addresses -/

/-- The `vlIntArray` objects of a program, by address. -/
abbrev Store := Nat → vlIntArray

/-- The store with the object at address `p` replaced. -/
def Store.set (s : Store) (p : Nat) (a : vlIntArray) : Store :=
  fun q => if q = p then a else s q

/-- `vlIntArray::operator=(vlIntArray& ia)` called on the object at address
`this` with the object at address `ia`. -/
def operatorAssign (s : Store) (this ia : Nat) (fresh : Option (Nat → Int)) : Option Store :=
  if this ≠ ia then
    let s1 := s.set this
      { MaxId := (s ia).MaxId, Size := (s ia).Size, Extend := (s ia).Extend,
        Array := newArray fresh (s ia).Size }
    match copyCells (s1 ia).Array ((s1 this).MaxId + 1).toNat 0 0 (s1 this).Array with
    | none => none
    | some arr => some (s1.set this { s1 this with Array := arr })
  else some s

/-- The loop of `operator+=`: `this->Array[this->MaxId+1+i] = ia.Array[i]`
for `n` consecutive values of `i`, every access going through the store. -/
def plusEqLoop (this ia : Nat) : Nat → Int → Store → Option Store
  | 0, _, s => some s
  | n + 1, i, s =>
    match (s ia).Array.read i with
    | none => none
    | some x =>
      match (s this).Array.write ((s this).MaxId + 1 + i) x with
      | none => none
      | some arr => plusEqLoop this ia n (i + 1) (s.set this { s this with Array := arr })

/-- `vlIntArray::operator+=(vlIntArray& ia)` called on the object at address
`this` with the object at address `ia` (which may be the same object). -/
def operatorPlusEq (s : Store) (this ia : Nat) (fresh : Option (Nat → Int)) : Option Store :=
  let sz := (s this).MaxId + (s ia).MaxId + 2
  let resized :=
    if (s this).Size ≤ sz then
      (vlIntArray.Resize (s this) fresh sz).map (fun r => s.set this r.1)
    else some s
  match resized with
  | none => none
  | some s1 =>
    match plusEqLoop this ia ((s1 ia).MaxId + 1).toNat 0 s1 with
    | none => none
    | some s2 =>
      some (s2.set this { s2 this with MaxId := (s2 this).MaxId + ((s2 ia).MaxId + 1) })

/-! ## `vtkAoSDataArrayTemplate` (Common/Core/vtkAoSDataArrayTemplate.h) -/

/-- The call `std::copy(src + first, src + last, dst + dfirst)` between two
distinct blocks; a range with `last < first` is not a valid range. -/
def stdCopy {α : Type} (src : Ptr α) (first last : Int) (dst : Ptr α) (dfirst : Int) :
    Option (Ptr α) :=
  if last < first then none else copyCells src (last - first).toNat first dfirst dst

/-- The data members read and written by the inline accessors of
`vtkAoSDataArrayTemplate<ValueType>`: `Buffer` is the pointer returned by
`this->Buffer.GetBuffer()` (class `vtkBuffer` is declared elsewhere), and
`NumberOfComponents` and `MaxId` are inherited members. -/
structure vtkAoSDataArrayTemplate (ValueType : Type) where
  Buffer : Ptr ValueType
  NumberOfComponents : Int
  MaxId : Int
  SaveUserArray : Bool
  DeleteMethod : Int

namespace vtkAoSDataArrayTemplate

variable {ValueType : Type}

/-- `GetValue(valueIdx)`. -/
def GetValue (self : vtkAoSDataArrayTemplate ValueType) (valueIdx : Int) : Option ValueType :=
  self.Buffer.read valueIdx

/-- `GetTupleValue(tupleIdx, tuple)`: returns the caller's block `tuple` after
the copy. -/
def GetTupleValue (self : vtkAoSDataArrayTemplate ValueType) (tupleIdx : Int)
    (tuple : Ptr ValueType) : Option (Ptr ValueType) :=
  let valueIdx := tupleIdx * self.NumberOfComponents
  stdCopy self.Buffer valueIdx (valueIdx + self.NumberOfComponents) tuple 0

/-- `GetComponentValue(index, comp)`. -/
def GetComponentValue (self : vtkAoSDataArrayTemplate ValueType) (index comp : Int) :
    Option ValueType :=
  self.Buffer.read (self.NumberOfComponents * index + comp)

/-- `SetValue(valueIdx, value)`. -/
def SetValue (self : vtkAoSDataArrayTemplate ValueType) (valueIdx : Int) (value : ValueType) :
    Option (vtkAoSDataArrayTemplate ValueType) :=
  match self.Buffer.write valueIdx value with
  | none => none
  | some buf => some { self with Buffer := buf }

/-- `SetTupleValue(tupleIdx, tuple)`. -/
def SetTupleValue (self : vtkAoSDataArrayTemplate ValueType) (tupleIdx : Int)
    (tuple : Ptr ValueType) : Option (vtkAoSDataArrayTemplate ValueType) :=
  let valueIdx := tupleIdx * self.NumberOfComponents
  match stdCopy tuple 0 (0 + self.NumberOfComponents) self.Buffer valueIdx with
  | none => none
  | some buf => some { self with Buffer := buf }

/-- `SetComponentValue(tupleIdx, comp, value)`. -/
def SetComponentValue (self : vtkAoSDataArrayTemplate ValueType) (tupleIdx comp : Int)
    (value : ValueType) : Option (vtkAoSDataArrayTemplate ValueType) :=
  let valueIdx := tupleIdx * self.NumberOfComponents + comp
  self.SetValue valueIdx value

end vtkAoSDataArrayTemplate

/-! ## Specification-side notions and example inputs -/

/-- The array of the growth scenario after `InsertValue(0, 7)`: one cell, one
element, increment 4. -/
def scenarioArray : vlIntArray :=
  { Array := .block [7], Size := 1, MaxId := 0, Extend := 4 }

/-- A full array: two cells, two elements, increment 3. -/
def fullArray : vlIntArray :=
  { Array := .block [10, 20], Size := 2, MaxId := 1, Extend := 3 }

/-- Contents of a fresh block in the examples: every cell holds zero. -/
def zeroFresh : Option (Nat → Int) := some (fun _ => 0)

/-- One call of a public mutating member of `vlIntArray` on the object at
address `this`, with the outcome `fresh` of the allocation the call may make. -/
inductive Op where
  | InsertValue (this : Nat) (fresh : Option (Nat → Int)) (id i : Int)
  | InsertNextValue (this : Nat) (fresh : Option (Nat → Int)) (i : Int)
  | PlusEq (this ia : Nat) (fresh : Option (Nat → Int))
  | Assign (this ia : Nat) (fresh : Option (Nat → Int))
  | Squeeze (this : Nat) (fresh : Option (Nat → Int))
  | SetMaxId (this : Nat) (id : Int)
  | Reset (this : Nat)

/-- The store after one call; `none` when the call leaves a block. -/
def Op.apply (s : Store) : Op → Option Store
  | .InsertValue p fresh id i => ((s p).InsertValue fresh id i).map (fun a => s.set p a)
  | .InsertNextValue p fresh i => ((s p).InsertNextValue fresh i).map (fun r => s.set p r.1)
  | .PlusEq p q fresh => operatorPlusEq s p q fresh
  | .Assign p q fresh => operatorAssign s p q fresh
  | .Squeeze p fresh => ((s p).Squeeze fresh).map (fun a => s.set p a)
  | .SetMaxId p id => some (s.set p ((s p).SetMaxId id))
  | .Reset p => some (s.set p (s p).Reset)

/-- The store after a sequence of calls, run in order. -/
def runOps (s : Store) : List Op → Option Store
  | [] => some s
  | op :: ops =>
    match op.apply s with
    | none => none
    | some s1 => runOps s1 ops

/-- A store in which the object at every address `p` has just been built by the
constructor `vlIntArray(sz p, ext p)`, its allocation having outcome `fresh p`. -/
def constructAll (fresh : Nat → Option (Nat → Int)) (sz ext : Nat → Int) : Store :=
  fun p => vlIntArray.vlIntArray (fresh p) (sz p) (ext p)

/-- The invariant established by the constructor and kept by every public
mutating member whose call stays inside its blocks: the capacity is
non-negative, the increment positive, the logical length at most the capacity,
and the block has at most `Size` cells. -/
def vlIntArray.ReachInv (a : VTK.vlIntArray) : Prop :=
  0 ≤ a.Size ∧ 1 ≤ a.Extend ∧ a.MaxId + 1 ≤ a.Size ∧ (a.Array.length : Int) ≤ a.Size

/-- Two objects for the examples: `vlIntArray(1, 4)` at every address. -/
def scenarioStore : Store :=
  constructAll (fun _ => zeroFresh) (fun _ => 1) (fun _ => 4)

/-- One object built by `vlIntArray(2, 3)` at every address. -/
def twoCellStore : Store :=
  constructAll (fun _ => zeroFresh) (fun _ => 2) (fun _ => 3)

/-- Two appends that fill the object at address 0 of `twoCellStore`. -/
def fillOps : List Op :=
  [.InsertNextValue 0 zeroFresh 10, .InsertNextValue 0 zeroFresh 20]

/-- A run over two objects that uses every mutating member. -/
def scenarioOps : List Op :=
  [.InsertValue 0 zeroFresh 0 7, .InsertValue 0 zeroFresh 5 9, .InsertNextValue 1 zeroFresh 3,
   .PlusEq 1 0 zeroFresh, .PlusEq 1 1 zeroFresh, .Squeeze 0 zeroFresh, .SetMaxId 0 2,
   .Assign 0 1 zeroFresh, .Reset 1, .InsertNextValue 1 none 8]

/-- Two distinct objects for the examples: the full two-element array at
address 0, the one-element array at every other address. -/
def pairStore : Store :=
  fun p => if p = 0 then fullArray else scenarioArray

/-- The invariant the specification states for the legacy array: `size ≥ 1`,
`extend ≥ 1`, `-1 ≤ maxId < size`. -/
def vlIntArray.LegacyInvariant (a : VTK.vlIntArray) : Prop :=
  1 ≤ a.Size ∧ 1 ≤ a.Extend ∧ -1 ≤ a.MaxId ∧ a.MaxId < a.Size

instance (a : VTK.vlIntArray) : Decidable a.LegacyInvariant :=
  inferInstanceAs (Decidable (1 ≤ a.Size ∧ 1 ≤ a.Extend ∧ -1 ≤ a.MaxId ∧ a.MaxId < a.Size))

/-- An emptied array: one cell, no element, increment 4. -/
def emptiedArray : vlIntArray :=
  { Array := .block [7], Size := 1, MaxId := -1, Extend := 4 }

/-- Consecutive `InsertNextValue` calls, one per entry of `calls`: an entry
holds the contents a block allocated during that call would have, and the
appended value.  The second component counts the calls that reach `Resize`,
which `InsertValue` calls when `id >= this->Size`, `id` being the incremented
`MaxId`. -/
def appendRun : vlIntArray → List ((Nat → Int) × Int) → Option (vlIntArray × Nat)
  | a, [] => some (a, 0)
  | a, c :: cs =>
    match a.InsertNextValue (some c.1) c.2 with
    | none => none
    | some r =>
      match appendRun r.1 cs with
      | none => none
      | some out => some (out.1, out.2 + (if a.MaxId + 1 ≥ a.Size then 1 else 0))

/-- Six appends for the examples, every fresh block holding zeros. -/
def sixAppends : List ((Nat → Int) × Int) :=
  [(fun _ => 0, 11), (fun _ => 0, 12), (fun _ => 0, 13), (fun _ => 0, 14), (fun _ => 0, 15),
   (fun _ => 0, 16)]

/-! ## Buffer ownership, modelled from the specification

`SetArray`, the reallocation of tuples and the destructor of
`vtkAoSDataArrayTemplate` are only declared in the header; their bodies and the
class `vtkBuffer` are in files that are not part of the sources at hand.  The
definitions below follow the specification of the buffer ownership abstraction
(`OwnedBuffer`, sections 3, 4.1 and 7). -/

/-- Modelled from the spec: the `ownership` attribute of `OwnedBuffer`, "one of:
Owned-Allocated, Owned-ExternalRetained, Borrowed-NoFree" (the body of
`vtkBuffer` and of `SetArray` is missing from the sources). -/
inductive Ownership where
  | OwnedAllocated
  | OwnedExternalRetained
  | BorrowedNoFree
  deriving DecidableEq, Repr

/-- Modelled from the spec: the `OwnedBuffer` behind `this->Buffer` (class
`vtkBuffer` is missing from the sources), with its attributes `capacity`,
`data` (the address of the block, `none` when the buffer is empty),
`ownership` and `deletionMethod`.  The field `freed` is the observation the
ownership claims are about: the deallocations made so far, newest first, each
with the address of the block and the deletion method used. -/
structure OwnedBuffer where
  capacity : Int
  data : Option Nat
  ownership : Ownership
  deletionMethod : Int
  freed : List (Nat × Int)
  deriving DecidableEq, Repr

namespace OwnedBuffer

/-- Modelled from the spec: `release()` of the missing class `vtkBuffer`, which
"deallocates if ownership is any Owned-* variant using the recorded deletion
method; no-op for Borrowed-NoFree.  Idempotent."  Destruction of the container
"releases owned buffer per ownership rule", so this is also the destructor. -/
def release (b : OwnedBuffer) : OwnedBuffer :=
  match b.data with
  | none => b
  | some p =>
    match b.ownership with
    | .BorrowedNoFree => b
    | _ => { b with data := none, capacity := 0, freed := (p, b.deletionMethod) :: b.freed }

/-- Modelled from the spec: `adopt(pointer, n, ownershipFlag, deletionMethod)`,
the missing body of `SetArray(array, size, save, deleteMethod)`: it "takes over
`pointer` as the backing store for `n` elements.  If `ownershipFlag` indicates
the caller retains responsibility, the buffer becomes Borrowed-NoFree and must
never deallocate `pointer`; otherwise it becomes Owned-ExternalRetained and
will deallocate using `deletionMethod` on release"; and "the adopt operation
always first releases any existing owned buffer". -/
def adopt (b : OwnedBuffer) (pointer : Nat) (n : Int) (retainedByCaller : Bool)
    (deletionMethod : Int) : OwnedBuffer :=
  { b.release with
    data := some pointer
    capacity := n
    ownership := if retainedByCaller then .BorrowedNoFree else .OwnedExternalRetained
    deletionMethod := deletionMethod }

/-- Modelled from the spec: `reallocate(n)`, the missing body behind
`ReallocateTuples`: it "grows or shrinks capacity to exactly `n`" in a new
block, here at address `fresh.1` and to be deallocated with method `fresh.2`
(`none` when the allocation fails, which leaves the prior state).  An owned
buffer releases its old block and "re-take[s] full ownership".  On a
Borrowed-NoFree buffer the call "is an error unless the policy explicitly
allows copy-on-grow" (`copyOnGrow`), in which case the contents move to the new
owned block and the borrowed block is left to the caller.  The second
component is the success indicator. -/
def reallocate (b : OwnedBuffer) (copyOnGrow : Bool) (n : Int) (fresh : Option (Nat × Int)) :
    OwnedBuffer × Bool :=
  match fresh with
  | none => (b, false)
  | some blk =>
    match b.ownership with
    | .BorrowedNoFree =>
      if copyOnGrow then
        ({ b with data := some blk.1, capacity := n, ownership := .OwnedAllocated,
                  deletionMethod := blk.2 }, true)
      else (b, false)
    | _ =>
      ({ b.release with data := some blk.1, capacity := n, ownership := .OwnedAllocated,
                        deletionMethod := blk.2 }, true)

end OwnedBuffer

/-- One step in the life of a buffer. -/
inductive BufferOp where
  | reallocate (copyOnGrow : Bool) (n : Int) (fresh : Option (Nat × Int))
  | adopt (pointer : Nat) (n : Int) (retainedByCaller : Bool) (deletionMethod : Int)
  | release

/-- The buffer after one step. -/
def BufferOp.apply (b : OwnedBuffer) : BufferOp → OwnedBuffer
  | .reallocate copyOnGrow n fresh => (b.reallocate copyOnGrow n fresh).1
  | .adopt pointer n retainedByCaller deletionMethod =>
    b.adopt pointer n retainedByCaller deletionMethod
  | .release => b.release

/-- The buffer after a sequence of steps, run in order. -/
def runBuffer (b : OwnedBuffer) : List BufferOp → OwnedBuffer
  | [] => b
  | op :: ops => runBuffer (op.apply b) ops

/-- The step neither allocates a block at address `ptr` nor adopts the block at
`ptr` again: the allocator hands out no address of a live block. -/
def BufferOp.avoids (ptr : Nat) : BufferOp → Bool
  | .reallocate _ _ none => true
  | .reallocate _ _ (some blk) => decide (blk.1 ≠ ptr)
  | .adopt pointer _ _ _ => decide (pointer ≠ ptr)
  | .release => true

/-- The addresses of the blocks a buffer has deallocated so far. -/
def OwnedBuffer.freedBlocks (b : OwnedBuffer) : List Nat :=
  b.freed.map Prod.fst

/-- A buffer owning an internally allocated block at address 1. -/
def ownedBuffer : OwnedBuffer :=
  { capacity := 4, data := some 1, ownership := .OwnedAllocated, deletionMethod := 0,
    freed := [] }

/-- A life after adopting the block at address 7: two reallocations, the
adoption of another block, and destruction. -/
def bufferLife : List BufferOp :=
  [.reallocate false 20 (some (8, 0)), .reallocate true 20 (some (9, 0)),
   .reallocate true 3 (some (10, 1)), .adopt 11 5 false 1, .release]

/-- A two-tuple array of width three over the integers, all cells zero. -/
def scenarioTuples : vtkAoSDataArrayTemplate Int :=
  { Buffer := .block [0, 0, 0, 0, 0, 0], NumberOfComponents := 3, MaxId := 5,
    SaveUserArray := false, DeleteMethod := 0 }

end VTK

namespace VTK

/-! ## Facts about memory blocks -/

theorem Ptr.read_eq_some_of_lt {α : Type} (p : Ptr α) (i : Int) (h0 : 0 ≤ i)
    (h1 : i < (p.length : Int)) : ∃ x, p.read i = some x := by
  cases p with
  | null => simp [Ptr.length] at h1; omega
  | block cells =>
    simp only [Ptr.length] at h1
    have hlt : i.toNat < cells.length := by omega
    exact ⟨cells[i.toNat], by simp [Ptr.read, h0, List.getElem?_eq_getElem hlt]⟩

theorem Ptr.read_lt_of_eq_some {α : Type} (p : Ptr α) (i : Int) (x : α)
    (h : p.read i = some x) : 0 ≤ i ∧ i < (p.length : Int) := by
  cases p with
  | null => simp [Ptr.read] at h
  | block cells =>
    simp only [Ptr.read] at h
    split at h
    · rename_i h0
      have := List.getElem?_eq_some_iff.mp h
      obtain ⟨hlt, _⟩ := this
      simp only [Ptr.length]
      omega
    · simp at h

theorem Ptr.write_eq_some_of_lt {α : Type} (p : Ptr α) (i : Int) (v : α) (h0 : 0 ≤ i)
    (h1 : i < (p.length : Int)) : ∃ q, p.write i v = some q := by
  cases p with
  | null => simp [Ptr.length] at h1; omega
  | block cells =>
    simp only [Ptr.length] at h1
    exact ⟨.block (cells.set i.toNat v), by simp [Ptr.write, h0, h1]⟩

theorem Ptr.lt_of_write_eq_some {α : Type} (p q : Ptr α) (i : Int) (v : α)
    (h : p.write i v = some q) : 0 ≤ i ∧ i < (p.length : Int) := by
  cases p with
  | null => simp [Ptr.write] at h
  | block cells =>
    simp only [Ptr.write] at h
    split at h
    · simpa [Ptr.length] using ‹_›
    · simp at h

theorem Ptr.length_of_write {α : Type} (p q : Ptr α) (i : Int) (v : α)
    (h : p.write i v = some q) : q.length = p.length ∧ q ≠ .null := by
  cases p with
  | null => simp [Ptr.write] at h
  | block cells =>
    simp only [Ptr.write] at h
    split at h
    · simp only [Option.some.injEq] at h
      subst h
      simp [Ptr.length]
    · simp at h

theorem Ptr.read_of_write {α : Type} (p q : Ptr α) (i : Int) (v : α)
    (h : p.write i v = some q) (j : Int) :
    q.read j = if j = i then some v else p.read j := by
  cases p with
  | null => simp [Ptr.write] at h
  | block cells =>
    simp only [Ptr.write] at h
    split at h
    · rename_i hb
      simp only [Option.some.injEq] at h
      subst h
      by_cases hj : j = i
      · subst hj
        have hlt : j.toNat < cells.length := by omega
        simp [Ptr.read, hb.1, List.getElem?_set_self hlt]
      · simp only [Ptr.read, hj, if_false]
        split
        · rename_i hj0
          have hne : i.toNat ≠ j.toNat := by omega
          simp [List.getElem?_set_ne hne]
        · rfl
    · simp at h

theorem Ptr.read_of_write_self {α : Type} (p q : Ptr α) (i : Int) (v : α)
    (h : p.write i v = some q) : q.read i = some v := by
  rw [Ptr.read_of_write p q i v h]; simp

theorem Ptr.read_of_write_ne {α : Type} (p q : Ptr α) (i : Int) (v : α)
    (h : p.write i v = some q) (j : Int) (hj : j ≠ i) : q.read j = p.read j := by
  rw [Ptr.read_of_write p q i v h]; simp [hj]

theorem newArray_some {α : Type} (f : Nat → α) (n : Int) (hn : 0 ≤ n) :
    newArray (some f) n = .block ((List.range n.toNat).map f) := by
  simp [newArray, not_lt.mpr hn]

theorem newArray_length_le {α : Type} (fresh : Option (Nat → α)) (n : Int) (hn : 0 ≤ n) :
    ((newArray fresh n).length : Int) ≤ n := by
  cases fresh with
  | none => simp [newArray, Ptr.length, hn]
  | some f => rw [newArray_some f n hn]; simp [Ptr.length, hn]

theorem newArray_neg {α : Type} (fresh : Option (Nat → α)) (n : Int) (hn : n < 0) :
    newArray fresh n = .null := by
  simp [newArray, hn]

theorem newArray_some_length {α : Type} (f : Nat → α) (n : Int) (hn : 0 ≤ n) :
    ((newArray (some f) n).length : Int) = n := by
  rw [newArray_some f n hn]; simp [Ptr.length, hn]

theorem newArray_some_read {α : Type} (f : Nat → α) (n : Int) (k : Int) (h0 : 0 ≤ k)
    (h1 : k < n) : (newArray (some f) n).read k = some (f k.toNat) := by
  rw [newArray_some f n (by omega)]
  have hlt : k.toNat < n.toNat := by omega
  simp [Ptr.read, h0, List.getElem?_range hlt]

/-- What a copy loop that stays inside both blocks produces. -/
theorem copyCells_spec {α : Type} (src : Ptr α) (n : Nat) :
    ∀ (si di : Int) (dst : Ptr α), 0 ≤ si → si + n ≤ (src.length : Int) → 0 ≤ di →
      di + n ≤ (dst.length : Int) →
      ∃ out, copyCells src n si di dst = some out ∧ out.length = dst.length ∧
        (dst ≠ .null → out ≠ .null) ∧
        (∀ k : Int, 0 ≤ k → k < n → out.read (di + k) = src.read (si + k)) ∧
        (∀ j : Int, (j < di ∨ di + n ≤ j) → out.read j = dst.read j) := by
  induction n with
  | zero =>
    intro si di dst _ _ _ _
    refine ⟨dst, rfl, rfl, id, ?_, by simp⟩
    intro k h0 h1
    simp at h1
    omega
  | succ n ih =>
    intro si di dst hs0 hs1 hd0 hd1
    push_cast at hs1 hd1
    obtain ⟨x, hx⟩ := Ptr.read_eq_some_of_lt src si hs0 (by omega)
    obtain ⟨d1, hd⟩ := Ptr.write_eq_some_of_lt dst di x hd0 (by omega)
    have hlen := (Ptr.length_of_write dst d1 di x hd).1
    obtain ⟨out, ho, hol, _, hcopy, hrest⟩ :=
      ih (si + 1) (di + 1) d1 (by omega) (by omega) (by omega) (by rw [hlen]; omega)
    refine ⟨out, by simp [copyCells, hx, hd, ho], by rw [hol, hlen], ?_, ?_, ?_⟩
    · intro _
      exact ‹d1 ≠ .null → out ≠ .null› (Ptr.length_of_write dst d1 di x hd).2
    · intro k h0 h1
      push_cast at h1
      by_cases hk : k = 0
      · subst hk
        rw [add_zero, add_zero, hrest di (by omega), Ptr.read_of_write_self dst d1 di x hd, hx]
      · have := hcopy (k - 1) (by omega) (by omega)
        have e1 : di + 1 + (k - 1) = di + k := by ring
        have e2 : si + 1 + (k - 1) = si + k := by ring
        rw [e1, e2] at this
        exact this
    · intro j hj
      push_cast at hj
      rw [hrest j (by omega), Ptr.read_of_write_ne dst d1 di x hd j (by omega)]

/-- A copy loop never changes the number of cells of its destination. -/
theorem copyCells_length {α : Type} (src : Ptr α) (n : Nat) :
    ∀ (si di : Int) (dst out : Ptr α), copyCells src n si di dst = some out →
      out.length = dst.length := by
  induction n with
  | zero =>
    intro si di dst out h
    simp only [copyCells, Option.some.injEq] at h
    rw [h]
  | succ n ih =>
    intro si di dst out h
    simp only [copyCells] at h
    split at h
    · simp at h
    · split at h
      · simp at h
      · rename_i d1 hw
        rw [ih _ _ _ _ h, (Ptr.length_of_write dst d1 di _ hw).1]

/-- A copy loop that returns never turns a block into the null pointer. -/
theorem copyCells_ne_null {α : Type} (src : Ptr α) (n : Nat) :
    ∀ (si di : Int) (dst out : Ptr α), copyCells src n si di dst = some out →
      dst ≠ .null → out ≠ .null := by
  induction n with
  | zero =>
    intro si di dst out h hd
    simp only [copyCells, Option.some.injEq] at h
    rw [← h]
    exact hd
  | succ n ih =>
    intro si di dst out h _
    simp only [copyCells] at h
    split at h
    · simp at h
    · split at h
      · simp at h
      · rename_i d1 hw
        exact ih _ _ _ _ h (Ptr.length_of_write dst d1 di _ hw).2

/-! ## Facts about `vlIntArray` -/

namespace vlIntArray

theorem BlockOfSize_iff (a : VTK.vlIntArray) :
    a.BlockOfSize ↔ a.Array ≠ .null ∧ (a.Array.length : Int) = a.Size := by
  exact Iff.rfl

theorem tdiv_bounds (x e : Int) (hx : 0 ≤ x) (he : 1 ≤ e) :
    x < e * (Int.tdiv x e + 1) ∧ e * (Int.tdiv x e + 1) ≤ x + e := by
  rw [Int.tdiv_eq_ediv hx (by omega)]
  have h1 := Int.lt_ediv_add_one_mul_self x (show 0 < e by omega)
  have h2 := Int.ediv_mul_le x (show e ≠ 0 by omega)
  constructor <;> nlinarith

/-- A reallocation whose allocation succeeds, on an array whose block holds
`Size` cells. -/
theorem Resize_some (a : VTK.vlIntArray) (f : Nat → Int) (sz : Int) (hB : a.BlockOfSize)
    (hE : 1 ≤ a.Extend) (hsz : 0 ≤ sz) :
    ∃ b, a.Resize (some f) sz = some (b, b.Array) ∧
      b.Size = (if sz ≥ a.Size then a.Size + a.Extend * (Int.tdiv (sz - a.Size) a.Extend + 1)
        else sz) ∧
      b.MaxId = a.MaxId ∧ b.Extend = a.Extend ∧ b.BlockOfSize ∧
      (∀ k : Int, 0 ≤ k → k < min a.Size b.Size → b.elem k = a.elem k) ∧
      (∀ k : Int, a.Size ≤ k → k < b.Size → b.elem k = some (f k.toNat)) := by
  obtain ⟨hnn, hlen⟩ := (BlockOfSize_iff a).mp hB
  have hS0 : 0 ≤ a.Size := by omega
  have hcond : ¬ (sz ≥ a.Size ∧ a.Extend = 0) := by omega
  generalize hns : (if sz ≥ a.Size then
    a.Size + a.Extend * (Int.tdiv (sz - a.Size) a.Extend + 1) else sz) = newSize
  have hn0 : 0 ≤ newSize ∧ (sz ≥ a.Size → sz < newSize ∧ a.Size < newSize) ∧
      (¬ sz ≥ a.Size → newSize = sz) := by
    by_cases hc : sz ≥ a.Size
    · have := tdiv_bounds (sz - a.Size) a.Extend (by omega) hE
      rw [if_pos hc] at hns
      omega
    · rw [if_neg hc] at hns
      omega
  obtain ⟨hn0, hgrow, hshrink⟩ := hn0
  have hdst : (newArray (some f) newSize) = .block ((List.range newSize.toNat).map f) :=
    newArray_some f newSize hn0
  have hdl : (((Ptr.block ((List.range newSize.toNat).map f)).length : Nat) : Int) = newSize := by
    simp [Ptr.length, hn0]
  obtain ⟨out, ho, hol, hon, hcopy, hrest⟩ :=
    copyCells_spec a.Array (min sz a.Size).toNat 0 0
      (.block ((List.range newSize.toNat).map f)) le_rfl (by omega) le_rfl
      (by rw [hdl]; by_cases hc : sz ≥ a.Size
          · have := hgrow hc; omega
          · have := hshrink hc; omega)
  refine ⟨{ a with Size := newSize, Array := out }, ?_, rfl, rfl, rfl, ?_, ?_, ?_⟩
  · simp only [Resize, if_neg hcond, hns, hdst, ho]
  · rw [BlockOfSize_iff]
    exact ⟨hon (by simp), by simp only; rw [hol, hdl]⟩
  · intro k hk0 hk1
    simp only [elem]
    simp only [] at hk1
    have := hcopy k hk0 (by
      by_cases hc : sz ≥ a.Size
      · have := hgrow hc; omega
      · have := hshrink hc; omega)
    simpa using this
  · intro k hk0 hk1
    simp only [elem]
    simp only [] at hk1
    have hc : sz ≥ a.Size := by
      by_contra hc
      have := hshrink hc
      omega
    rw [hrest k (Or.inr (by omega)), ← hdst]
    exact newArray_some_read f newSize k (by omega) hk1

/-- What `InsertValue` does when the reallocation it may need succeeds. -/
theorem InsertValue_some (a : VTK.vlIntArray) (fresh : Option (Nat → Int)) (id v : Int)
    (hB : a.BlockOfSize) (hE : 1 ≤ a.Extend) (hid : 0 ≤ id)
    (hA : a.Size ≤ id → fresh ≠ none) :
    ∃ b, a.InsertValue fresh id v = some b ∧ b.elem id = some v ∧
      b.MaxId = max a.MaxId id ∧ b.Extend = a.Extend ∧ b.BlockOfSize ∧
      b.Size = (if id ≥ a.Size then
        a.Size + a.Extend * (Int.tdiv (id - a.Size) a.Extend + 1) else a.Size) ∧
      (∀ j : Int, 0 ≤ j → j < a.Size → j ≠ id → b.elem j = a.elem j) := by
  by_cases hc : id ≥ a.Size
  · obtain ⟨f, hf⟩ := Option.ne_none_iff_exists.mp (hA hc)
    subst hf
    obtain ⟨r, hr, hrS, hrM, hrE, hrB, hrK, _⟩ := Resize_some a f id hB hE hid
    have hb := tdiv_bounds (id - a.Size) a.Extend (by omega) hE
    rw [if_pos hc] at hrS
    obtain ⟨hrn, hrl⟩ := (BlockOfSize_iff r).mp hrB
    obtain ⟨arr, hw⟩ := Ptr.write_eq_some_of_lt r.Array id v hid (by omega)
    obtain ⟨hal, han⟩ := Ptr.length_of_write _ _ _ _ hw
    refine ⟨if id > r.MaxId then { r with Array := arr, MaxId := id } else { r with Array := arr },
      ?_, ?_, ?_, ?_, ?_, ?_, ?_⟩
    · simp only [InsertValue, if_pos hc, hr, Option.map_some', hw]
    · split <;> exact Ptr.read_of_write_self _ _ _ _ hw
    · split <;> simp only [] <;> omega
    · split <;> exact hrE
    · rw [BlockOfSize_iff]
      split <;> exact ⟨han, by simp only []; rw [hal, hrl]⟩
    · rw [if_pos hc]
      split <;> exact hrS
    · intro j hj0 hj1 hjn
      have e1 : (if id > r.MaxId then { r with Array := arr, MaxId := id }
          else { r with Array := arr }).Array = arr := by
        split <;> rfl
      simp only [elem, e1]
      rw [Ptr.read_of_write_ne _ _ _ _ hw j hjn]
      exact hrK j hj0 (by omega)
  · obtain ⟨hn, hl⟩ := (BlockOfSize_iff a).mp hB
    obtain ⟨arr, hw⟩ := Ptr.write_eq_some_of_lt a.Array id v hid (by omega)
    obtain ⟨hal, han⟩ := Ptr.length_of_write _ _ _ _ hw
    refine ⟨if id > a.MaxId then { a with Array := arr, MaxId := id } else { a with Array := arr },
      ?_, ?_, ?_, ?_, ?_, ?_, ?_⟩
    · simp only [InsertValue, if_neg hc, hw]
    · split <;> exact Ptr.read_of_write_self _ _ _ _ hw
    · split <;> simp only [] <;> omega
    · split <;> rfl
    · rw [BlockOfSize_iff]
      split <;> exact ⟨han, by simp only []; rw [hal, hl]⟩
    · rw [if_neg hc]
      split <;> rfl
    · intro j hj0 hj1 hjn
      have e1 : (if id > a.MaxId then { a with Array := arr, MaxId := id }
          else { a with Array := arr }).Array = arr := by
        split <;> rfl
      simp only [elem, e1]
      exact Ptr.read_of_write_ne _ _ _ _ hw j hjn

end vlIntArray

end VTK

namespace VTK

/-! ## Facts about `vtkAoSDataArrayTemplate` -/

theorem Ptr.eq_block_of_read {α : Type} (p : Ptr α) (v : List α) (hn : p ≠ .null)
    (hl : p.length = v.length) (h : ∀ k : Nat, k < v.length → p.read (k : Int) = v[k]?) :
    p = .block v := by
  cases p with
  | null => exact absurd rfl hn
  | block cells =>
    simp only [Ptr.length] at hl
    congr 1
    apply List.ext_getElem? 
    intro k
    by_cases hk : k < v.length
    · have := h k hk
      simpa [Ptr.read] using this
    · rw [List.getElem?_eq_none (by omega), List.getElem?_eq_none (by omega)]

theorem Ptr.read_block_natCast {α : Type} (v : List α) (k : Nat) :
    (Ptr.block v).read (k : Int) = v[k]? := by
  simp [Ptr.read]

namespace vtkAoSDataArrayTemplate

/-- What `SetTupleValue` does when the tuple range lies inside the buffer. -/
theorem SetTupleValue_some {α : Type} (a : vtkAoSDataArrayTemplate α) (t : Int) (v : List α)
    (hW : 0 ≤ a.NumberOfComponents) (ht : 0 ≤ t)
    (hr : t * a.NumberOfComponents + a.NumberOfComponents ≤ (a.Buffer.length : Int))
    (hv : (v.length : Int) = a.NumberOfComponents) :
    ∃ buf, a.SetTupleValue t (.block v) = some { a with Buffer := buf } ∧
      buf.length = a.Buffer.length ∧ (a.Buffer ≠ .null → buf ≠ .null) ∧
      (∀ c : Nat, (c : Int) < a.NumberOfComponents →
        buf.read (t * a.NumberOfComponents + c) = v[c]?) ∧
      (∀ j : Int, (j < t * a.NumberOfComponents ∨
          t * a.NumberOfComponents + a.NumberOfComponents ≤ j) →
        buf.read j = a.Buffer.read j) := by
  have hn : ((a.NumberOfComponents.toNat : Nat) : Int) = a.NumberOfComponents := by omega
  have htW : 0 ≤ t * a.NumberOfComponents := mul_nonneg ht hW
  obtain ⟨buf, hb, hbl, hbn, hcopy, hrest⟩ :=
    copyCells_spec (Ptr.block v) a.NumberOfComponents.toNat 0 (t * a.NumberOfComponents)
      a.Buffer le_rfl (by simp only [Ptr.length]; omega) htW (by omega)
  refine ⟨buf, ?_, hbl, hbn, ?_, ?_⟩
  · have hlt : ¬ (0 + a.NumberOfComponents < 0) := by omega
    have he : (0 + a.NumberOfComponents - 0).toNat = a.NumberOfComponents.toNat := by simp
    simp only [SetTupleValue, stdCopy, if_neg hlt, he, hb]
  · intro c hc
    have := hcopy c (by omega) (by omega)
    rw [this, zero_add, Ptr.read_block_natCast]
  · intro j hj
    exact hrest j (by omega)

/-- What `GetTupleValue` does when the tuple range lies inside the buffer and
the caller's block has room for a tuple. -/
theorem GetTupleValue_some {α : Type} (a : vtkAoSDataArrayTemplate α) (t : Int) (out : Ptr α)
    (hW : 0 ≤ a.NumberOfComponents) (ht : 0 ≤ t)
    (hr : t * a.NumberOfComponents + a.NumberOfComponents ≤ (a.Buffer.length : Int))
    (ho : a.NumberOfComponents ≤ (out.length : Int)) :
    ∃ o, a.GetTupleValue t out = some o ∧ o.length = out.length ∧
      (out ≠ .null → o ≠ .null) ∧
      (∀ c : Nat, (c : Int) < a.NumberOfComponents →
        o.read c = a.Buffer.read (t * a.NumberOfComponents + c)) ∧
      (∀ j : Int, a.NumberOfComponents ≤ j → o.read j = out.read j) := by
  have htW : 0 ≤ t * a.NumberOfComponents := mul_nonneg ht hW
  obtain ⟨o, hb, hbl, hbn, hcopy, hrest⟩ :=
    copyCells_spec a.Buffer a.NumberOfComponents.toNat (t * a.NumberOfComponents) 0
      out htW (by omega) le_rfl (by omega)
  refine ⟨o, ?_, hbl, hbn, ?_, ?_⟩
  · have hlt : ¬ (t * a.NumberOfComponents + a.NumberOfComponents
        < t * a.NumberOfComponents) := by omega
    have he : (t * a.NumberOfComponents + a.NumberOfComponents
        - t * a.NumberOfComponents).toNat = a.NumberOfComponents.toNat := by simp
    simp only [GetTupleValue, stdCopy, if_neg hlt, he, hb]
  · intro c hc
    have := hcopy c (by omega) (by omega)
    rw [zero_add] at this
    exact this
  · intro j hj
    exact hrest j (Or.inr (by omega))

end vtkAoSDataArrayTemplate

end VTK

namespace VTK

/-! ## Facts about stores and the two binary operators -/

theorem Store.set_self (s : Store) (p : Nat) (a : vlIntArray) : (s.set p a) p = a := by
  simp [Store.set]

theorem Store.set_ne (s : Store) (p r : Nat) (a : vlIntArray) (h : r ≠ p) :
    (s.set p a) r = s r := by
  simp [Store.set, h]

theorem Store.set_set (s : Store) (p : Nat) (a b : vlIntArray) :
    (s.set p a).set p b = s.set p b := by
  funext r
  by_cases h : r = p <;> simp [Store.set, h]

/-- Whatever the two addresses, a loop of `operator+=` that returns has only
replaced the cells of the block of `this`, and every index it wrote lies inside
that block. -/
theorem plusEqLoop_shape (p q : Nat) (n : Nat) :
    ∀ (i : Int) (s s2 : Store), plusEqLoop p q n i s = some s2 →
      ∃ arr, s2 = s.set p { s p with Array := arr } ∧
        arr.length = (s p).Array.length ∧
        (1 ≤ n → (s p).MaxId + 1 + i + n ≤ ((s p).Array.length : Int)) := by
  induction n with
  | zero =>
    intro i s s2 h
    simp only [plusEqLoop, Option.some.injEq] at h
    refine ⟨(s p).Array, ?_, rfl, fun h1 => absurd h1 (by decide)⟩
    rw [← h]
    funext r
    by_cases hr : r = p
    · subst hr; simp [Store.set]
    · simp [Store.set, hr]
  | succ n ih =>
    intro i s s2 h
    simp only [plusEqLoop] at h
    split at h
    · simp at h
    · split at h
      · simp at h
      · rename_i a1 hw
        obtain ⟨hl1, _⟩ := Ptr.length_of_write _ _ _ _ hw
        obtain ⟨hw0, hw1⟩ := Ptr.lt_of_write_eq_some _ _ _ _ hw
        obtain ⟨arr, hs2, hlen, hb⟩ := ih _ _ _ h
        simp only [Store.set_self, Store.set_set] at hs2 hlen hb
        refine ⟨arr, hs2, by rw [hlen, hl1], fun _ => ?_⟩
        push_cast
        by_cases hn : 1 ≤ n
        · have := hb hn
          rw [hl1] at this
          omega
        · have : n = 0 := by omega
          subst this
          simp only [CharP.cast_eq_zero, zero_add]
          omega

end VTK

namespace VTK

/-- The store after the loop and the final `MaxId` update of `operator+=`,
from the store `s1` reached after the optional `Resize`. -/
theorem operatorPlusEq_unfold (s : Store) (p q : Nat) (fresh : Option (Nat → Int)) :
    operatorPlusEq s p q fresh =
      (if (s p).Size ≤ (s p).MaxId + (s q).MaxId + 2 then
          (vlIntArray.Resize (s p) fresh ((s p).MaxId + (s q).MaxId + 2)).map
            (fun r => s.set p r.1)
        else some s).bind (fun s1 =>
        (plusEqLoop p q ((s1 q).MaxId + 1).toNat 0 s1).map (fun s2 =>
          s2.set p { s2 p with MaxId := (s2 p).MaxId + ((s2 q).MaxId + 1) })) := by
  unfold operatorPlusEq
  simp only []
  split
  · rename_i h; rw [h]; rfl
  · rename_i s1 h
    rw [h]
    simp only [Option.some_bind]
    split
    · rename_i h2; rw [h2]; rfl
    · rename_i s2 h2; rw [h2]; rfl

end VTK

namespace VTK

/-- The effect of `operator=` between two distinct objects. -/
theorem operatorAssign_of_ne (s : Store) (p q : Nat) (fresh : Option (Nat → Int))
    (hpq : p ≠ q) :
    operatorAssign s p q fresh =
      (copyCells (s q).Array ((s q).MaxId + 1).toNat 0 0 (newArray fresh (s q).Size)).map
        (fun arr => s.set p
          { MaxId := (s q).MaxId, Size := (s q).Size, Extend := (s q).Extend, Array := arr }) := by
  have hqp : q ≠ p := fun h => hpq h.symm
  unfold operatorAssign
  rw [if_pos hpq]
  simp only [Store.set_self, Store.set_ne _ _ _ _ hqp, Store.set_set]
  split
  · rename_i h; rw [h]; rfl
  · rename_i arr h; rw [h]; rfl

/-- The effect of `operator=` on one and the same object. -/
theorem operatorAssign_self (s : Store) (p : Nat) (fresh : Option (Nat → Int)) :
    operatorAssign s p p fresh = some s := by
  simp [operatorAssign]

theorem eq_some_getD_of_isSome {α : Type} (o : Option α) (d : α) (h : o.isSome = true) :
    o = some (o.getD d) := by
  cases o with
  | none => simp at h
  | some x => rfl

/-! ## The invariant of reachable states -/

theorem ReachInv_constructor (fresh : Option (Nat → Int)) (sz ext : Int) :
    (vlIntArray.vlIntArray fresh sz ext).ReachInv := by
  simp only [vlIntArray.ReachInv, vlIntArray.vlIntArray]
  refine ⟨by split <;> omega, by split <;> omega, by split <;> omega, ?_⟩
  by_cases h : sz < 0
  · rw [newArray_neg fresh sz h]
    simp only [Ptr.length]
    split <;> omega
  · have := newArray_length_le fresh sz (by omega)
    split <;> omega

namespace vlIntArray

/-- Every outcome of `Resize`: either the allocation failed and nothing
changed, or the capacity and the block are the new size. -/
theorem Resize_cases (a b : VTK.vlIntArray) (fresh : Option (Nat → Int)) (sz : Int)
    (ptr : Ptr Int) (hE : 1 ≤ a.Extend) (h : a.Resize fresh sz = some (b, ptr)) :
    (b = a ∧ ptr = .null) ∨
      (b.MaxId = a.MaxId ∧ b.Extend = a.Extend ∧ 0 ≤ b.Size ∧
        (b.Array.length : Int) = b.Size ∧ b.Array ≠ .null ∧
        (a.Size ≤ sz → sz < b.Size ∧ a.Size < b.Size ∧ b.Size ≤ sz + a.Extend) ∧
        (sz < a.Size → b.Size = sz)) := by
  unfold Resize at h
  have hcond : ¬ (sz ≥ a.Size ∧ a.Extend = 0) := by omega
  rw [if_neg hcond] at h
  simp only [] at h
  generalize hns : (if sz ≥ a.Size then
    a.Size + a.Extend * (Int.tdiv (sz - a.Size) a.Extend + 1) else sz) = newSize at h
  have hgrow : a.Size ≤ sz → sz < newSize ∧ a.Size < newSize ∧ newSize ≤ sz + a.Extend := by
    intro hc
    have := tdiv_bounds (sz - a.Size) a.Extend (by omega) hE
    rw [if_pos hc] at hns
    omega
  have hshrink : sz < a.Size → newSize = sz := by
    intro hc
    rw [if_neg (by omega)] at hns
    omega
  split at h
  · simp only [Option.some.injEq, Prod.mk.injEq] at h
    exact Or.inl ⟨h.1.symm, h.2.symm⟩
  · rename_i cells hcells
    split at h
    · simp at h
    · rename_i newArr hcopy
      simp only [Option.some.injEq, Prod.mk.injEq] at h
      obtain ⟨hb, _⟩ := h
      have hn0 : 0 ≤ newSize := by
        by_contra hneg
        rw [newArray_neg fresh newSize (by omega)] at hcells
        simp at hcells
      have hlen := copyCells_length _ _ _ _ _ _ hcopy
      have hle := newArray_length_le fresh newSize hn0
      have hcl : ((Ptr.block cells).length : Int) = newSize := by
        cases fresh with
        | none => simp [newArray] at hcells
        | some f =>
          rw [newArray_some f newSize hn0] at hcells
          simp only [Ptr.block.injEq] at hcells
          simp [Ptr.length, ← hcells, hn0]
      have hnn : newArr ≠ .null := copyCells_ne_null _ _ _ _ _ _ hcopy (by simp)
      right
      subst hb
      exact ⟨rfl, rfl, hn0, by simp only []; rw [hlen, hcl], hnn, hgrow, hshrink⟩

/-- Every outcome of `InsertValue` that stays inside the block. -/
theorem InsertValue_post (a b : VTK.vlIntArray) (fresh : Option (Nat → Int)) (id v : Int)
    (hS : 0 ≤ a.Size) (hE : 1 ≤ a.Extend) (hL : (a.Array.length : Int) ≤ a.Size)
    (h : a.InsertValue fresh id v = some b) :
    0 ≤ b.Size ∧ b.Extend = a.Extend ∧ (b.Array.length : Int) ≤ b.Size ∧ a.Size ≤ b.Size ∧
      id < b.Size ∧ b.MaxId = max a.MaxId id := by
  have key : ∀ r : VTK.vlIntArray, 0 ≤ r.Size → r.Extend = a.Extend →
      (r.Array.length : Int) ≤ r.Size → a.Size ≤ r.Size → r.MaxId = a.MaxId →
      (match r.Array.write id v with
        | none => none
        | some arr =>
          some (if id > r.MaxId then { r with Array := arr, MaxId := id }
            else { r with Array := arr })) = some b →
      0 ≤ b.Size ∧ b.Extend = a.Extend ∧ (b.Array.length : Int) ≤ b.Size ∧ a.Size ≤ b.Size ∧
        id < b.Size ∧ b.MaxId = max a.MaxId id := by
    intro r hr0 hrE hrL hrS hrM hm
    split at hm
    · simp at hm
    · rename_i arr hw
      obtain ⟨hal, _⟩ := Ptr.length_of_write _ _ _ _ hw
      obtain ⟨_, hlt⟩ := Ptr.lt_of_write_eq_some _ _ _ _ hw
      simp only [Option.some.injEq] at hm
      subst hm
      split
      · simp only []
        refine ⟨hr0, hrE, by rw [hal]; exact hrL, hrS, by omega, by omega⟩
      · simp only []
        refine ⟨hr0, hrE, by rw [hal]; exact hrL, hrS, by omega, by omega⟩
  unfold InsertValue at h
  simp only [] at h
  by_cases hc : id ≥ a.Size
  · rw [if_pos hc] at h
    cases hR : a.Resize fresh id with
    | none => rw [hR] at h; simp at h
    | some rp =>
      obtain ⟨r, ptr⟩ := rp
      rw [hR] at h
      simp only [Option.map_some'] at h
      rcases Resize_cases a r fresh id ptr hE hR with ⟨hra, _⟩ | ⟨hM, hEx, h0, hlen, _, hg, _⟩
      · subst hra
        exact key r hS rfl hL le_rfl rfl h
      · have := hg hc
        exact key r h0 hEx (by omega) (by omega) hM h
  · rw [if_neg hc] at h
    exact key a hS rfl hL le_rfl rfl h

end vlIntArray

/-- Every call of a public mutating member keeps the invariant of every object
of the store. -/
theorem ReachInv_apply (op : Op) (s t : Store) (hs : ∀ r, (s r).ReachInv)
    (h : op.apply s = some t) : ∀ r, (t r).ReachInv := by
  have frame : ∀ (p : Nat) (b : vlIntArray), b.ReachInv → ∀ r, ((s.set p b) r).ReachInv := by
    intro p b hb r
    by_cases hr : r = p
    · subst hr; rw [Store.set_self]; exact hb
    · rw [Store.set_ne _ _ _ _ hr]; exact hs r
  cases op with
  | InsertValue p fresh id i =>
    simp only [Op.apply] at h
    cases hI : (s p).InsertValue fresh id i with
    | none => rw [hI] at h; simp at h
    | some b =>
      rw [hI] at h
      simp only [Option.map_some', Option.some.injEq] at h
      subst h
      obtain ⟨h0, h1, h2, h3⟩ := hs p
      obtain ⟨g0, g1, g2, g3, g4, g5⟩ := vlIntArray.InsertValue_post _ _ _ _ _ h0 h1 h3 hI
      exact frame p b ⟨g0, by omega, by omega, g2⟩
  | InsertNextValue p fresh i =>
    simp only [Op.apply, vlIntArray.InsertNextValue] at h
    cases hI : vlIntArray.InsertValue { s p with MaxId := (s p).MaxId + 1 } fresh
        ((s p).MaxId + 1) i with
    | none => rw [hI] at h; simp at h
    | some b =>
      rw [hI] at h
      simp only [Option.map_some', Option.some.injEq] at h
      subst h
      obtain ⟨h0, h1, h2, h3⟩ := hs p
      obtain ⟨g0, g1, g2, g3, g4, g5⟩ :=
        vlIntArray.InsertValue_post { s p with MaxId := (s p).MaxId + 1 } b fresh
          ((s p).MaxId + 1) i h0 h1 h3 hI
      simp only [max_self] at g5
      exact frame p b ⟨g0, by simp only [] at g1; omega, by omega, g2⟩
  | PlusEq p q fresh =>
    simp only [Op.apply] at h
    rw [operatorPlusEq_unfold] at h
    obtain ⟨h0, h1, h2, h3⟩ := hs p
    -- the store after the optional reallocation
    have hres : ∀ s1 : Store,
        (if (s p).Size ≤ (s p).MaxId + (s q).MaxId + 2 then
          (vlIntArray.Resize (s p) fresh ((s p).MaxId + (s q).MaxId + 2)).map
            (fun r => s.set p r.1)
        else some s) = some s1 →
        (∀ r, r ≠ p → s1 r = s r) ∧ (s1 p).MaxId = (s p).MaxId ∧ 0 ≤ (s1 p).Size ∧
          1 ≤ (s1 p).Extend ∧ ((s1 p).Array.length : Int) ≤ (s1 p).Size ∧
          (s p).Size ≤ (s1 p).Size ∧
          ((s p).MaxId + (s q).MaxId + 2 < (s1 p).Size ∨
            ((s1 p).Size = (s p).Size ∧ (s1 p).Array.length = (s p).Array.length)) := by
      intro s1 hs1
      by_cases hc : (s p).Size ≤ (s p).MaxId + (s q).MaxId + 2
      · rw [if_pos hc] at hs1
        cases hR : (s p).Resize fresh ((s p).MaxId + (s q).MaxId + 2) with
        | none => rw [hR] at hs1; simp at hs1
        | some rp =>
          obtain ⟨r, ptr⟩ := rp
          rw [hR] at hs1
          simp only [Option.map_some', Option.some.injEq] at hs1
          subst hs1
          refine ⟨fun x hx => Store.set_ne _ _ _ _ hx, ?_⟩
          rw [Store.set_self]
          rcases vlIntArray.Resize_cases _ r fresh _ ptr h1 hR with
            ⟨hra, _⟩ | ⟨hM, hEx, g0, hlen, _, hg, _⟩
          · subst hra
            exact ⟨rfl, h0, h1, h3, le_rfl, Or.inr ⟨rfl, rfl⟩⟩
          · have := hg hc
            exact ⟨hM, g0, by omega, by omega, by omega, Or.inl (by omega)⟩
      · rw [if_neg hc] at hs1
        simp only [Option.some.injEq] at hs1
        subst hs1
        exact ⟨fun _ _ => rfl, rfl, h0, h1, h3, le_rfl, Or.inr ⟨rfl, rfl⟩⟩
    cases hR : (if (s p).Size ≤ (s p).MaxId + (s q).MaxId + 2 then
          (vlIntArray.Resize (s p) fresh ((s p).MaxId + (s q).MaxId + 2)).map
            (fun r => s.set p r.1)
        else some s) with
    | none => rw [hR] at h; simp at h
    | some s1 =>
      rw [hR] at h
      simp only [Option.some_bind] at h
      obtain ⟨hfr, hM1, g0, g1, g3, gS, gcase⟩ := hres s1 hR
      have hMq : (s1 q).MaxId = (s q).MaxId := by
        by_cases hqp : q = p
        · subst hqp; exact hM1
        · rw [hfr q hqp]
      cases hL : plusEqLoop p q ((s1 q).MaxId + 1).toNat 0 s1 with
      | none => rw [hL] at h; simp at h
      | some s2 =>
        rw [hL] at h
        simp only [Option.map_some', Option.some.injEq] at h
        obtain ⟨arr, hs2, hlen, hb⟩ := plusEqLoop_shape p q _ _ _ _ hL
        have hs2p : s2 p = { s1 p with Array := arr } := by rw [hs2, Store.set_self]
        have hs2q : (s2 q).MaxId = (s1 q).MaxId := by
          by_cases hqp : q = p
          · subst hqp; rw [hs2p]
          · rw [hs2, Store.set_ne _ _ _ _ hqp]
        subst h
        intro r
        by_cases hr : r = p
        · subst hr
          rw [Store.set_self, hs2q, hs2p]
          simp only [vlIntArray.ReachInv]
          refine ⟨g0, g1, ?_, by rw [hlen]; exact g3⟩
          rw [hMq, hM1]
          by_cases hn : 0 ≤ (s q).MaxId
          · have hb1 := hb (by rw [hMq]; omega)
            have hcast : ((((s1 q).MaxId + 1).toNat : Nat) : Int) = (s q).MaxId + 1 := by
              rw [hMq]; omega
            rw [hcast, hM1] at hb1
            omega
          · omega
        · rw [Store.set_ne _ _ _ _ hr, hs2, Store.set_ne _ _ _ _ hr, hfr r hr]
          exact hs r
  | Assign p q fresh =>
    simp only [Op.apply] at h
    by_cases hpq : p = q
    · subst hpq
      rw [operatorAssign_self] at h
      simp only [Option.some.injEq] at h
      subst h
      exact hs
    · rw [operatorAssign_of_ne s p q fresh hpq] at h
      cases hC : copyCells (s q).Array ((s q).MaxId + 1).toNat 0 0
          (newArray fresh (s q).Size) with
      | none => rw [hC] at h; simp at h
      | some arr =>
        rw [hC] at h
        simp only [Option.map_some', Option.some.injEq] at h
        subst h
        obtain ⟨h0, h1, h2, h3⟩ := hs q
        have hlen := copyCells_length _ _ _ _ _ _ hC
        have hle := newArray_length_le fresh (s q).Size h0
        exact frame p _ ⟨h0, h1, h2, by simp only []; rw [hlen]; exact hle⟩
  | Squeeze p fresh =>
    simp only [Op.apply, vlIntArray.Squeeze] at h
    obtain ⟨h0, h1, h2, h3⟩ := hs p
    cases hR : (s p).Resize fresh ((s p).MaxId + 1) with
    | none => rw [hR] at h; simp at h
    | some rp =>
      obtain ⟨r, ptr⟩ := rp
      rw [hR] at h
      simp only [Option.map_some', Option.some.injEq] at h
      subst h
      rcases vlIntArray.Resize_cases _ r fresh _ ptr h1 hR with
        ⟨hra, _⟩ | ⟨hM, hEx, g0, hlen, _, hg, hsh⟩
      · rw [hra]
        exact frame p (s p) (hs p)
      · refine frame p r ⟨g0, by omega, ?_, by omega⟩
        by_cases hc : (s p).Size ≤ (s p).MaxId + 1
        · have := hg hc; omega
        · have := hsh (by omega); omega
  | SetMaxId p id =>
    simp only [Op.apply, Option.some.injEq] at h
    subst h
    obtain ⟨h0, h1, h2, h3⟩ := hs p
    refine frame p _ ⟨h0, h1, ?_, h3⟩
    simp only [vlIntArray.SetMaxId]
    split <;> omega
  | Reset p =>
    simp only [Op.apply, Option.some.injEq] at h
    subst h
    obtain ⟨h0, h1, h2, h3⟩ := hs p
    exact frame p _ ⟨h0, h1, by simp only [vlIntArray.Reset]; omega, h3⟩

/-- Every run of public mutating members keeps the invariant. -/
theorem ReachInv_runOps (ops : List Op) :
    ∀ (s t : Store), (∀ r, (s r).ReachInv) → runOps s ops = some t → ∀ r, (t r).ReachInv := by
  induction ops with
  | nil =>
    intro s t hs h
    simp only [runOps, Option.some.injEq] at h
    subst h
    exact hs
  | cons op ops ih =>
    intro s t hs h
    simp only [runOps] at h
    cases hA : op.apply s with
    | none => rw [hA] at h; simp at h
    | some s1 =>
      rw [hA] at h
      exact ih s1 t (ReachInv_apply op s s1 hs hA) h

end VTK

namespace VTK

/-! ## Ceiling of an integer quotient -/

theorem ceil_div_of_emod_ne_zero (d e : Int) (he : 1 ≤ e) (hr : d % e ≠ 0) :
    ⌈(d : ℚ) / (e : ℚ)⌉ = d / e + 1 := by
  have hpos : (0 : ℚ) < (e : ℚ) := by exact_mod_cast (show (0 : Int) < e by omega)
  have h1 := Int.emod_add_ediv d e
  have h2 := Int.emod_nonneg d (show e ≠ 0 by omega)
  have h3 := Int.emod_lt_of_pos d (show 0 < e by omega)
  have h2p : 0 < d % e := lt_of_le_of_ne h2 (Ne.symm hr)
  rw [Int.ceil_eq_iff]
  constructor
  · rw [lt_div_iff₀ hpos]
    have : (d / e) * e < d := by nlinarith
    push_cast
    have hq : ((d / e : Int) : ℚ) * (e : ℚ) < (d : ℚ) := by exact_mod_cast this
    linarith
  · rw [div_le_iff₀ hpos]
    have : d ≤ (d / e + 1) * e := by nlinarith
    exact_mod_cast this

theorem ceil_div_of_emod_eq_zero (d e : Int) (he : 1 ≤ e) (hr : d % e = 0) :
    ⌈(d : ℚ) / (e : ℚ)⌉ = d / e := by
  have hpos : (0 : ℚ) < (e : ℚ) := by exact_mod_cast (show (0 : Int) < e by omega)
  have h1 := Int.emod_add_ediv d e
  rw [hr, zero_add] at h1
  rw [Int.ceil_eq_iff]
  constructor
  · rw [lt_div_iff₀ hpos]
    have hq : ((d / e : Int) : ℚ) * (e : ℚ) = (d : ℚ) := by
      have : (d / e) * e = d := by linarith
      exact_mod_cast this
    linarith
  · rw [div_le_iff₀ hpos]
    have : d ≤ (d / e) * e := by linarith
    exact_mod_cast this

theorem ceil_succ_div (d e : Int) (he : 1 ≤ e) :
    ⌈((d + 1 : Int) : ℚ) / (e : ℚ)⌉ = d / e + 1 := by
  have hpos : (0 : ℚ) < (e : ℚ) := by exact_mod_cast (show (0 : Int) < e by omega)
  have h1 := Int.emod_add_ediv d e
  have h2 := Int.emod_nonneg d (show e ≠ 0 by omega)
  have h3 := Int.emod_lt_of_pos d (show 0 < e by omega)
  rw [Int.ceil_eq_iff]
  constructor
  · rw [lt_div_iff₀ hpos]
    have : (d / e) * e < d + 1 := by nlinarith
    push_cast
    have hq : ((d / e : Int) : ℚ) * (e : ℚ) < ((d + 1 : Int) : ℚ) := by exact_mod_cast this
    push_cast at hq
    linarith
  · rw [div_le_iff₀ hpos]
    have : d + 1 ≤ (d / e + 1) * e := by nlinarith
    exact_mod_cast this

/-! ## Claims on `vlIntArray` -/

/-- Claim C1. `vlIntArray::InsertValue`: on an array whose block holds exactly
`Size` cells (hence `Size >= 0`), with `Extend >= 1` and `MaxId < Size`, for
every `id >= 0` and value `v`, and whenever the reallocation the call needs (if
it needs one, `id >= Size`) succeeds, `InsertValue(id, v)` returns an array
whose element `id` is `v`, whose `MaxId` is `max(old MaxId, id)` (so the length
is `max(old length, id + 1)`), and in which every index `j <= old MaxId` other
than `id` holds its old value.  The lower bound `-1 <= MaxId` of the claim is
not needed. -/
theorem C1_InsertValue_contract (a : vlIntArray) (fresh : Option (Nat → Int)) (id v : Int)
    (hB : a.BlockOfSize) (hE : 1 ≤ a.Extend) (hM1 : a.MaxId < a.Size) (hid : 0 ≤ id)
    (hA : a.Size ≤ id → fresh ≠ none) :
    ∃ b, a.InsertValue fresh id v = some b ∧ b.elem id = some v ∧
      b.MaxId = max a.MaxId id ∧ b.MaxId + 1 = max (a.MaxId + 1) (id + 1) ∧
      ∀ j : Int, 0 ≤ j → j ≤ a.MaxId → j ≠ id →
        ∃ x, a.elem j = some x ∧ b.elem j = some x := by
  obtain ⟨b, hb, hv, hM, _, _, _, hK⟩ := vlIntArray.InsertValue_some a fresh id v hB hE hid hA
  refine ⟨b, hb, hv, hM, by rw [hM]; omega, ?_⟩
  intro j hj0 hj1 hjn
  obtain ⟨x, hx⟩ := Ptr.read_eq_some_of_lt a.Array j hj0 (by rw [hB.2]; omega)
  exact ⟨x, hx, by rw [hK j hj0 (by omega) hjn]; exact hx⟩

/-- Witness of C1: the growth scenario, `InsertValue(5, 9)` on the one-cell
array holding 7. -/
theorem C1_InsertValue_contract_witness :
    ∃ b, scenarioArray.InsertValue zeroFresh 5 9 = some b ∧ b.elem 5 = some 9 ∧
      b.MaxId = max scenarioArray.MaxId 5 ∧
      b.MaxId + 1 = max (scenarioArray.MaxId + 1) (5 + 1) ∧
      ∀ j : Int, 0 ≤ j → j ≤ scenarioArray.MaxId → j ≠ 5 →
        ∃ x, scenarioArray.elem j = some x ∧ b.elem j = some x :=
  C1_InsertValue_contract scenarioArray zeroFresh 5 9 (by decide) (by decide) (by decide)
    (by decide) (fun _ => by simp [zeroFresh])

/-- Claim C3. `vlIntArray::InsertNextValue`: on an array with
`-1 <= MaxId < Size`, block of `Size` cells and `Extend >= 1`, and whenever the
reallocation a full array needs succeeds, `InsertNextValue(v)` returns
`old MaxId + 1`, which is the new `MaxId`; the element at that index is `v`;
and every element at an index `<= old MaxId` is unchanged. -/
theorem C3_InsertNextValue_contract (a : vlIntArray) (fresh : Option (Nat → Int)) (v : Int)
    (hB : a.BlockOfSize) (hE : 1 ≤ a.Extend) (hM0 : -1 ≤ a.MaxId) (hM1 : a.MaxId < a.Size)
    (hA : a.MaxId + 1 = a.Size → fresh ≠ none) :
    ∃ b, a.InsertNextValue fresh v = some (b, a.MaxId + 1) ∧ b.MaxId = a.MaxId + 1 ∧
      b.elem (a.MaxId + 1) = some v ∧
      ∀ j : Int, 0 ≤ j → j ≤ a.MaxId → ∃ x, a.elem j = some x ∧ b.elem j = some x := by
  obtain ⟨b, hb, hv, hM, _, _, _, hK⟩ :=
    vlIntArray.InsertValue_some { a with MaxId := a.MaxId + 1 } fresh (a.MaxId + 1) v hB hE
      (by omega) (fun h => hA (by simp only [] at h; omega))
  simp only [max_self] at hM
  refine ⟨b, ?_, hM, hv, ?_⟩
  · simp only [vlIntArray.InsertNextValue, hb, hM]
  · intro j hj0 hj1
    obtain ⟨x, hx⟩ := Ptr.read_eq_some_of_lt a.Array j hj0 (by rw [hB.2]; omega)
    refine ⟨x, hx, ?_⟩
    rw [hK j hj0 (by simp only []; omega) (by omega)]
    exact hx

/-- Witness of C3: an append to the full two-element array. -/
theorem C3_InsertNextValue_contract_witness :
    ∃ b, fullArray.InsertNextValue zeroFresh 30 = some (b, fullArray.MaxId + 1) ∧
      b.MaxId = fullArray.MaxId + 1 ∧ b.elem (fullArray.MaxId + 1) = some 30 ∧
      ∀ j : Int, 0 ≤ j → j ≤ fullArray.MaxId →
        ∃ x, fullArray.elem j = some x ∧ b.elem j = some x :=
  C3_InsertNextValue_contract fullArray zeroFresh 30 (by decide) (by decide) (by decide)
    (by decide) (fun _ => by simp [zeroFresh])

/-- Claim C6. Content preservation on reallocation: for every array whose block
holds `Size` cells, with `Extend >= 1`, and every `sz >= 0`, a `Resize(sz)`
whose allocation succeeds returns a non-null pointer, and every element at an
index `i < min(old Size, new Size)` has the value it had before the call,
whether the capacity grew or shrank. -/
theorem C6_Resize_preserves_contents (a : vlIntArray) (f : Nat → Int) (sz : Int)
    (hB : a.BlockOfSize) (hE : 1 ≤ a.Extend) (hsz : 0 ≤ sz) :
    ∃ b, a.Resize (some f) sz = some (b, b.Array) ∧ b.Array ≠ .null ∧
      ∀ i : Int, 0 ≤ i → i < min a.Size b.Size →
        ∃ x, a.elem i = some x ∧ b.elem i = some x := by
  obtain ⟨b, hb, _, _, _, hbB, hK, _⟩ := vlIntArray.Resize_some a f sz hB hE hsz
  refine ⟨b, hb, hbB.1, ?_⟩
  intro i hi0 hi1
  obtain ⟨x, hx⟩ := Ptr.read_eq_some_of_lt a.Array i hi0 (by rw [hB.2]; omega)
  exact ⟨x, hx, by rw [hK i hi0 hi1]; exact hx⟩

/-- Witness of C6: shrinking the full two-element array to one cell. -/
theorem C6_Resize_preserves_contents_witness :
    ∃ b, fullArray.Resize (some (fun _ => 0)) 1 = some (b, b.Array) ∧ b.Array ≠ .null ∧
      ∀ i : Int, 0 ≤ i → i < min fullArray.Size b.Size →
        ∃ x, fullArray.elem i = some x ∧ b.elem i = some x :=
  C6_Resize_preserves_contents fullArray (fun _ => 0) 1 (by decide) (by decide) (by decide)

/-- Counterexample to C7 as stated: on the one-cell array with increment 4,
`Resize(5)` sets `Size` to 9, while `Size + Extend * ceil((sz - Size) / Extend)`
is `1 + 4 * ceil(4 / 4) = 5`. -/
theorem C7_growth_target_counterexample :
    (scenarioArray.Resize zeroFresh 5).map (fun r => r.1.Size) = some 9 ∧
      scenarioArray.Size + scenarioArray.Extend *
        ⌈((5 - scenarioArray.Size : Int) : ℚ) / ((scenarioArray.Extend : Int) : ℚ)⌉ = 5 := by
  refine ⟨by decide, ?_⟩
  have h : ⌈(((5 - scenarioArray.Size : Int) : ℚ)) / ((scenarioArray.Extend : Int) : ℚ)⌉ = 1 := by
    rw [ceil_div_of_emod_eq_zero _ _ (by decide) (by decide)]
    decide
  rw [h]
  decide

/-- Claim C7, amended. Linear growth target: for every array whose block holds
`Size` cells, with `Extend >= 1`, and every `sz >= Size`, a `Resize(sz)` whose
allocation succeeds sets `Size` to exactly
`old Size + Extend * ceil((sz + 1 - old Size) / Extend)`, which is
`old Size + Extend * (floor((sz - old Size) / Extend) + 1)`: the requested
size of the formula is `sz + 1`, the number of cells that makes index `sz`
valid, so that the new capacity exceeds `sz` by at most `Extend`.  The value
`old Size + Extend * ceil((sz - old Size) / Extend)` is reached when `Extend`
does not divide `sz - old Size`, and exceeded by `Extend` when it does. -/
theorem C7_growth_target (a : vlIntArray) (f : Nat → Int) (sz : Int)
    (hB : a.BlockOfSize) (hE : 1 ≤ a.Extend) (hsz : a.Size ≤ sz) :
    ∃ b, a.Resize (some f) sz = some (b, b.Array) ∧
      b.Size = a.Size + a.Extend * ⌈((sz + 1 - a.Size : Int) : ℚ) / ((a.Extend : Int) : ℚ)⌉ ∧
      b.Size = a.Size + a.Extend * ((sz - a.Size) / a.Extend + 1) ∧
      sz < b.Size ∧ b.Size ≤ sz + a.Extend ∧
      ((sz - a.Size) % a.Extend ≠ 0 →
        b.Size = a.Size + a.Extend * ⌈((sz - a.Size : Int) : ℚ) / ((a.Extend : Int) : ℚ)⌉) ∧
      ((sz - a.Size) % a.Extend = 0 →
        b.Size = a.Size + a.Extend * ⌈((sz - a.Size : Int) : ℚ) / ((a.Extend : Int) : ℚ)⌉
          + a.Extend) := by
  have hS0 : 0 ≤ a.Size := by rw [← hB.2]; omega
  obtain ⟨b, hb, hS, _⟩ := vlIntArray.Resize_some a f sz hB hE (by omega)
  rw [if_pos (show sz ≥ a.Size from hsz)] at hS
  have hbd := vlIntArray.tdiv_bounds (sz - a.Size) a.Extend (by omega) hE
  have hte : Int.tdiv (sz - a.Size) a.Extend = (sz - a.Size) / a.Extend :=
    Int.tdiv_eq_ediv (by omega) (by omega)
  have hsucc : sz + 1 - a.Size = (sz - a.Size) + 1 := by ring
  refine ⟨b, hb, ?_, by rw [hS, hte], by omega, by omega, ?_, ?_⟩
  · rw [hsucc, ceil_succ_div _ _ hE, hS, hte]
  · intro hr
    rw [ceil_div_of_emod_ne_zero _ _ hE hr, hS, hte]
  · intro hr
    rw [ceil_div_of_emod_eq_zero _ _ hE hr, hS, hte]
    ring

/-- Witness of C7 (amended): `Resize(5)` on the one-cell array with increment 4. -/
theorem C7_growth_target_witness :
    ∃ b, scenarioArray.Resize (some (fun _ => 0)) 5 = some (b, b.Array) ∧
      b.Size = scenarioArray.Size + scenarioArray.Extend *
        ⌈((5 + 1 - scenarioArray.Size : Int) : ℚ) / ((scenarioArray.Extend : Int) : ℚ)⌉ ∧
      b.Size = scenarioArray.Size +
        scenarioArray.Extend * ((5 - scenarioArray.Size) / scenarioArray.Extend + 1) ∧
      5 < b.Size ∧ b.Size ≤ 5 + scenarioArray.Extend ∧
      ((5 - scenarioArray.Size) % scenarioArray.Extend ≠ 0 →
        b.Size = scenarioArray.Size + scenarioArray.Extend *
          ⌈((5 - scenarioArray.Size : Int) : ℚ) / ((scenarioArray.Extend : Int) : ℚ)⌉) ∧
      ((5 - scenarioArray.Size) % scenarioArray.Extend = 0 →
        b.Size = scenarioArray.Size + scenarioArray.Extend *
          ⌈((5 - scenarioArray.Size : Int) : ℚ) / ((scenarioArray.Extend : Int) : ℚ)⌉
          + scenarioArray.Extend) :=
  C7_growth_target scenarioArray (fun _ => 0) 5 (by decide) (by decide) (by decide)

/-- Claim C8, evaluated on the code. `Squeeze()` on an array with
`-1 <= MaxId < Size` (block of `Size` cells, `Extend >= 1`, allocation
succeeding) leaves `Size = MaxId + 1` only when the array is not full; on a
full array, `MaxId + 1 = Size`, it sets `Size` to `Size + Extend`, which is
larger than the logical length. -/
theorem C8_Squeeze_size (a : vlIntArray) (f : Nat → Int) (hB : a.BlockOfSize)
    (hE : 1 ≤ a.Extend) (hM0 : -1 ≤ a.MaxId) :
    ∃ b, a.Squeeze (some f) = some b ∧ b.MaxId = a.MaxId ∧
      (a.MaxId + 1 < a.Size → b.Size = b.MaxId + 1) ∧
      (a.MaxId + 1 = a.Size → b.Size = a.Size + a.Extend ∧ b.Size ≠ b.MaxId + 1) := by
  obtain ⟨b, hb, hS, hM, _⟩ := vlIntArray.Resize_some a f (a.MaxId + 1) hB hE (by omega)
  refine ⟨b, by simp only [vlIntArray.Squeeze, hb, Option.map_some'], hM, ?_, ?_⟩
  · intro h
    rw [if_neg (by omega)] at hS
    rw [hS, hM]
  · intro h
    rw [if_pos (by omega), h, sub_self] at hS
    have h0 : Int.tdiv 0 a.Extend = 0 := by simp
    rw [h0] at hS
    constructor <;> omega

/-- Witness of C8: `Squeeze()` on the full two-element array with increment 3
yields capacity 5. -/
theorem C8_Squeeze_size_witness :
    ∃ b, fullArray.Squeeze (some (fun _ => 0)) = some b ∧ b.MaxId = fullArray.MaxId ∧
      (fullArray.MaxId + 1 < fullArray.Size → b.Size = b.MaxId + 1) ∧
      (fullArray.MaxId + 1 = fullArray.Size →
        b.Size = fullArray.Size + fullArray.Extend ∧ b.Size ≠ b.MaxId + 1) :=
  C8_Squeeze_size fullArray (fun _ => 0) (by decide) (by decide) (by decide)

end VTK

namespace VTK

/-! ## Claims on `vtkAoSDataArrayTemplate` -/

/-- Claim C4. Tuple round trip: for every width `W = NumberOfComponents >= 1`,
every tuple index `t >= 0` whose range `[t*W, t*W + W)` lies inside the buffer,
every `W`-component tuple `v` and every caller block `out` with room for `W`
values, `SetTupleValue(t, v)` followed by `GetTupleValue(t, out)` both run
inside their blocks and leave `out[c] = v[c]` for every component `c < W`;
when `out` has exactly `W` cells it ends equal to `v`. -/
theorem C4_tuple_round_trip {α : Type} (a : vtkAoSDataArrayTemplate α) (t : Int)
    (v : List α) (out : Ptr α) (hW : 1 ≤ a.NumberOfComponents) (ht : 0 ≤ t)
    (hr : t * a.NumberOfComponents + a.NumberOfComponents ≤ (a.Buffer.length : Int))
    (hv : (v.length : Int) = a.NumberOfComponents)
    (ho : a.NumberOfComponents ≤ (out.length : Int)) :
    ∃ b o, a.SetTupleValue t (.block v) = some b ∧ b.GetTupleValue t out = some o ∧
      o.length = out.length ∧
      (∀ c : Nat, (c : Int) < a.NumberOfComponents →
        ∃ x, v[c]? = some x ∧ o.read c = some x) ∧
      ((out.length : Int) = a.NumberOfComponents → o = .block v) := by
  obtain ⟨buf, hset, hbl, _, hcopy, _⟩ :=
    vtkAoSDataArrayTemplate.SetTupleValue_some a t v (by omega) ht hr hv
  obtain ⟨o, hget, hol, hon, hread, _⟩ :=
    vtkAoSDataArrayTemplate.GetTupleValue_some { a with Buffer := buf } t out
      (by simp only []; omega) ht (by simp only []; rw [hbl]; exact hr) ho
  simp only [] at hread
  have hpoint : ∀ c : Nat, (c : Int) < a.NumberOfComponents → o.read c = v[c]? := by
    intro c hc
    rw [hread c hc, hcopy c hc]
  refine ⟨_, o, hset, hget, hol, ?_, ?_⟩
  · intro c hc
    have hlt : c < v.length := by omega
    exact ⟨v[c], List.getElem?_eq_getElem hlt, by rw [hpoint c hc, List.getElem?_eq_getElem hlt]⟩
  · intro hlen
    apply Ptr.eq_block_of_read o v
    · apply hon
      intro hnull
      rw [hnull] at hlen
      simp only [Ptr.length] at hlen
      omega
    · omega
    · intro k hk
      exact hpoint k (by omega)

/-- Witness of C4: writing then reading tuple 1 of the width-three example. -/
theorem C4_tuple_round_trip_witness :
    ∃ b o, scenarioTuples.SetTupleValue 1 (.block [4, 5, 6]) = some b ∧
      b.GetTupleValue 1 (.block [0, 0, 0]) = some o ∧
      o.length = (Ptr.block [0, 0, 0] : Ptr Int).length ∧
      (∀ c : Nat, (c : Int) < scenarioTuples.NumberOfComponents →
        ∃ x, [4, 5, (6 : Int)][c]? = some x ∧ o.read c = some x) ∧
      (((Ptr.block [0, 0, 0] : Ptr Int).length : Int) = scenarioTuples.NumberOfComponents →
        o = .block [4, 5, 6]) :=
  C4_tuple_round_trip scenarioTuples 1 [4, 5, 6] (.block [0, 0, 0]) (by decide) (by decide)
    (by decide) (by decide) (by decide)

/-- Claim C5. Array-of-structs layout: for every width `W >= 1`, in-range tuple
index `t` and component `c < W`, after `SetTupleValue(t, v)` both
`GetValue(t*W + c)` and `GetComponentValue(t, c)` return `v[c]`; and with
`W = 3` on a buffer of at least six cells, after `SetTupleValue(0, [x1,x2,x3])`
and `SetTupleValue(1, [x4,x5,x6])`, `GetValue(4)` returns `x5` (the 5 of the
tuples `[1,2,3]` and `[4,5,6]`). -/
theorem C5_aos_layout :
    (∀ (α : Type) (a : vtkAoSDataArrayTemplate α) (t : Int) (v : List α) (c : Nat),
      1 ≤ a.NumberOfComponents → 0 ≤ t →
      t * a.NumberOfComponents + a.NumberOfComponents ≤ (a.Buffer.length : Int) →
      (v.length : Int) = a.NumberOfComponents → (c : Int) < a.NumberOfComponents →
      ∃ b x, a.SetTupleValue t (.block v) = some b ∧ v[c]? = some x ∧
        b.GetValue (t * a.NumberOfComponents + c) = some x ∧
        b.GetComponentValue t c = some x) ∧
    (∀ (α : Type) (a : vtkAoSDataArrayTemplate α) (x1 x2 x3 x4 x5 x6 : α),
      a.NumberOfComponents = 3 → 6 ≤ a.Buffer.length →
      ∃ b1 b2, a.SetTupleValue 0 (.block [x1, x2, x3]) = some b1 ∧
        b1.SetTupleValue 1 (.block [x4, x5, x6]) = some b2 ∧ b2.GetValue 4 = some x5) := by
  constructor
  · intro α a t v c hW ht hr hv hc
    obtain ⟨buf, hset, _, _, hcopy, _⟩ :=
      vtkAoSDataArrayTemplate.SetTupleValue_some a t v (by omega) ht hr hv
    have hlt : c < v.length := by omega
    refine ⟨_, v[c], hset, List.getElem?_eq_getElem hlt, ?_, ?_⟩
    · simp only [vtkAoSDataArrayTemplate.GetValue]
      rw [hcopy c hc, List.getElem?_eq_getElem hlt]
    · simp only [vtkAoSDataArrayTemplate.GetComponentValue]
      rw [mul_comm a.NumberOfComponents t, hcopy c hc, List.getElem?_eq_getElem hlt]
  · intro α a x1 x2 x3 x4 x5 x6 hW hlen
    obtain ⟨buf1, hset1, hbl1, _, _, _⟩ :=
      vtkAoSDataArrayTemplate.SetTupleValue_some a 0 [x1, x2, x3] (by omega) le_rfl
        (by rw [hW]; omega) (by rw [hW]; rfl)
    obtain ⟨buf2, hset2, _, _, hcopy2, _⟩ :=
      vtkAoSDataArrayTemplate.SetTupleValue_some { a with Buffer := buf1 } 1 [x4, x5, x6]
        (by simp only []; omega) (by decide)
        (by simp only []; rw [hW, hbl1]; omega) (by simp only []; rw [hW]; rfl)
    refine ⟨_, _, hset1, hset2, ?_⟩
    have := hcopy2 1 (by simp only []; rw [hW]; decide)
    simp only [hW] at this
    simpa [vtkAoSDataArrayTemplate.GetValue] using this

/-- Witness of C5: the scenario on a six-cell integer buffer of width three. -/
theorem C5_aos_layout_witness :
    ∃ b1 b2, scenarioTuples.SetTupleValue 0 (.block [1, 2, 3]) = some b1 ∧
      b1.SetTupleValue 1 (.block [4, 5, 6]) = some b2 ∧ b2.GetValue 4 = some 5 :=
  C5_aos_layout.2 Int scenarioTuples 1 2 3 4 5 6 (by decide) (by decide)

end VTK

namespace VTK

/-! ## Claims on the binary operators, and runs that stay inside their blocks -/

/-- Claim C10. Assignment is a deep copy of the valid range: for two distinct
objects `a` (at address `p`) and `b` (at address `q`), `b` with
`-1 <= MaxId < Size` and a block of `Size` cells, and the allocation of the
new block succeeding, after `a = b` the fields `MaxId`, `Size` and `Extend` of
`a` equal those of `b`, `a` has a block of `Size` cells whose element `i`
equals `b`'s element `i` for `0 <= i <= b.MaxId`, the cells above `b.MaxId`
are those of the fresh block (exactly `MaxId + 1` elements are copied), and
`b`, like every other object, is unchanged; when both operands are the same
object, the whole store is unchanged. -/
theorem C10_operatorAssign_deep_copy (s : Store) (p q : Nat) (f : Nat → Int) (hpq : p ≠ q)
    (hB : (s q).BlockOfSize) (hb0 : -1 ≤ (s q).MaxId) (hb1 : (s q).MaxId < (s q).Size) :
    (∃ t, operatorAssign s p q (some f) = some t ∧
      (t p).MaxId = (s q).MaxId ∧ (t p).Size = (s q).Size ∧ (t p).Extend = (s q).Extend ∧
      (t p).BlockOfSize ∧
      (∀ i : Int, 0 ≤ i → i ≤ (s q).MaxId →
        ∃ x, (s q).elem i = some x ∧ (t p).elem i = some x) ∧
      (∀ i : Int, (s q).MaxId < i → i < (s q).Size → (t p).elem i = some (f i.toNat)) ∧
      (∀ r : Nat, r ≠ p → t r = s r)) ∧
    (∀ (r : Nat) (fresh : Option (Nat → Int)), operatorAssign s r r fresh = some s) := by
  refine ⟨?_, fun r fresh => operatorAssign_self s r fresh⟩
  have hS0 : 0 ≤ (s q).Size := by rw [← hB.2]; omega
  have hdl := newArray_some_length f (s q).Size hS0
  have hn : ((((s q).MaxId + 1).toNat : Nat) : Int) = (s q).MaxId + 1 := by omega
  obtain ⟨arr, hcopy, hlen, hnn, hread, hrest⟩ :=
    copyCells_spec (s q).Array ((s q).MaxId + 1).toNat 0 0 (newArray (some f) (s q).Size)
      le_rfl (by rw [hB.2]; omega) le_rfl (by omega)
  rw [operatorAssign_of_ne s p q (some f) hpq, hcopy]
  refine ⟨s.set p ⟨arr, (s q).Size, (s q).MaxId, (s q).Extend⟩, rfl, ?_, ?_, ?_, ?_, ?_, ?_, ?_⟩
  · rw [Store.set_self]
  · rw [Store.set_self]
  · rw [Store.set_self]
  · rw [Store.set_self]
    refine ⟨hnn (by rw [newArray_some f _ hS0]; simp), ?_⟩
    simp only []
    rw [hlen, hdl]
  · intro i hi0 hi1
    obtain ⟨x, hx⟩ := Ptr.read_eq_some_of_lt (s q).Array i hi0 (by rw [hB.2]; omega)
    refine ⟨x, hx, ?_⟩
    have := hread i hi0 (by omega)
    simp only [zero_add] at this
    rw [Store.set_self]
    simp only [vlIntArray.elem]
    rw [this]
    exact hx
  · intro i hi0 hi1
    rw [Store.set_self]
    simp only [vlIntArray.elem]
    rw [hrest i (Or.inr (by omega))]
    exact newArray_some_read f (s q).Size i (by omega) hi1
  · intro r hr
    exact Store.set_ne _ _ _ _ hr

/-- Witness of C10: assigning the one-element array at address 1 to the object
at address 0. -/
theorem C10_operatorAssign_deep_copy_witness :
    (∃ t, operatorAssign pairStore 0 1 (some (fun _ => 0)) = some t ∧
      (t 0).MaxId = (pairStore 1).MaxId ∧ (t 0).Size = (pairStore 1).Size ∧
      (t 0).Extend = (pairStore 1).Extend ∧ (t 0).BlockOfSize ∧
      (∀ i : Int, 0 ≤ i → i ≤ (pairStore 1).MaxId →
        ∃ x, (pairStore 1).elem i = some x ∧ (t 0).elem i = some x) ∧
      (∀ i : Int, (pairStore 1).MaxId < i → i < (pairStore 1).Size →
        (t 0).elem i = some ((fun _ => 0) i.toNat)) ∧
      (∀ r : Nat, r ≠ 0 → t r = pairStore r)) ∧
    (∀ (r : Nat) (fresh : Option (Nat → Int)),
      operatorAssign pairStore r r fresh = some pairStore) :=
  C10_operatorAssign_deep_copy pairStore 0 1 (fun _ => 0) (by decide) (by decide) (by decide)
    (by decide)

/-- Runs that stay inside their blocks keep the length within the capacity: in
every store reached from objects built by the constructor `vlIntArray(sz, ext)`
through a sequence of `InsertValue`, `InsertNextValue`, `operator+=`,
`operator=`, `Squeeze`, `SetMaxId` and `Reset` calls (aliased or not) none of
which writes or reads outside a block, every object satisfies
`MaxId + 1 <= Size`.  A growth whose allocation fails is not such a call. -/
theorem length_le_capacity_of_run (fresh : Nat → Option (Nat → Int)) (sz ext : Nat → Int)
    (ops : List Op) (t : Store) (h : runOps (constructAll fresh sz ext) ops = some t)
    (p : Nat) : (t p).MaxId + 1 ≤ (t p).Size :=
  (ReachInv_runOps ops (constructAll fresh sz ext) t
    (fun r => ReachInv_constructor (fresh r) (sz r) (ext r)) h p).2.2.1

/-- An instance of `length_le_capacity_of_run`: a run over two objects that
uses every mutating member. -/
theorem length_le_capacity_of_run_example :
    (runOps scenarioStore scenarioOps).isSome = true ∧
      ((runOps scenarioStore scenarioOps).getD scenarioStore 0).MaxId + 1 ≤
        ((runOps scenarioStore scenarioOps).getD scenarioStore 0).Size :=
  ⟨by decide,
    length_le_capacity_of_run (fun _ => zeroFresh) (fun _ => 1) (fun _ => 4) scenarioOps
      ((runOps scenarioStore scenarioOps).getD scenarioStore)
      (eq_some_getD_of_isSome (runOps scenarioStore scenarioOps) scenarioStore (by decide)) 0⟩

end VTK

namespace VTK

/-! ## Further facts about blocks and single calls -/

theorem Ptr.write_eq_none_of_le {α : Type} (p : Ptr α) (i : Int) (v : α)
    (h : (p.length : Int) ≤ i) : p.write i v = none := by
  cases p with
  | null => rfl
  | block cells =>
    simp only [Ptr.length] at h
    simp only [Ptr.write]
    rw [if_neg (by omega)]

theorem newArray_none {α : Type} (n : Int) : newArray (none : Option (Nat → α)) n = .null := by
  simp only [newArray]
  split <;> rfl

theorem newArray_ne_null_iff {α : Type} (fresh : Option (Nat → α)) (n : Int) :
    newArray fresh n ≠ .null ↔ (0 ≤ n ∧ fresh ≠ none) := by
  by_cases hneg : n < 0
  · rw [newArray_neg fresh n hneg]
    constructor
    · intro h; exact absurd rfl h
    · intro h; omega
  · cases fresh with
    | none =>
      rw [newArray_none]
      constructor
      · intro h; exact absurd rfl h
      · intro h; exact absurd rfl h.2
    | some f =>
      rw [newArray_some f n (by omega)]
      constructor
      · intro _; exact ⟨by omega, by simp⟩
      · intro _; simp

/-- A copy loop only depends on the cells of the source it reads. -/
theorem copyCells_congr {α : Type} (src1 src2 : Ptr α) (n : Nat) :
    ∀ (si di : Int) (dst : Ptr α),
      (∀ k : Int, 0 ≤ k → k < n → src1.read (si + k) = src2.read (si + k)) →
      copyCells src1 n si di dst = copyCells src2 n si di dst := by
  induction n with
  | zero => intro si di dst _; rfl
  | succ n ih =>
    intro si di dst h
    have h0 := h 0 le_rfl (by push_cast; omega)
    rw [add_zero] at h0
    have hrec : ∀ d1, copyCells src1 n (si + 1) (di + 1) d1 =
        copyCells src2 n (si + 1) (di + 1) d1 := by
      intro d1
      apply ih
      intro k hk0 hk1
      have := h (k + 1) (by omega) (by push_cast; omega)
      have e : si + (k + 1) = si + 1 + k := by ring
      rw [e] at this
      exact this
    simp only [copyCells, h0]
    cases src2.read si with
    | none => rfl
    | some x =>
      simp only []
      cases dst.write di x with
      | none => rfl
      | some d1 => exact hrec d1

namespace vlIntArray

/-- `Resize` leaves the array as it is when the allocation fails. -/
theorem Resize_none (a : VTK.vlIntArray) (sz : Int) (hE : a.Extend ≠ 0) :
    a.Resize none sz = some (a, .null) := by
  have hcond : ¬ (sz ≥ a.Size ∧ a.Extend = 0) := fun h => hE h.2
  simp only [Resize, if_neg hcond, newArray_none]

/-- `Initialize` when `new int[sz]` yields no block. -/
theorem Initialize_of_null (a : VTK.vlIntArray) (fresh : Option (Nat → Int)) (sz ext : Int)
    (h : newArray fresh sz = .null) :
    a.Initialize fresh sz ext =
      (⟨.null, if sz > 0 then sz else 1, a.MaxId, a.Extend⟩, 0) := by
  simp only [Initialize, h, if_true]

/-- `Initialize` when `new int[sz]` yields a block. -/
theorem Initialize_of_block (a : VTK.vlIntArray) (fresh : Option (Nat → Int)) (sz ext : Int)
    (h : newArray fresh sz ≠ .null) :
    a.Initialize fresh sz ext =
      (⟨newArray fresh sz, if sz > 0 then sz else 1, -1, if ext > 0 then ext else 1⟩, 1) := by
  simp only [Initialize, if_neg h]

/-- What `InsertNextValue` does when the reallocation a full array needs
succeeds. -/
theorem InsertNextValue_some (a : VTK.vlIntArray) (fresh : Option (Nat → Int)) (v : Int)
    (hB : a.BlockOfSize) (hE : 1 ≤ a.Extend) (hM0 : -1 ≤ a.MaxId) (hM1 : a.MaxId < a.Size)
    (hA : a.MaxId + 1 = a.Size → fresh ≠ none) :
    ∃ b, a.InsertNextValue fresh v = some (b, a.MaxId + 1) ∧ b.MaxId = a.MaxId + 1 ∧
      b.Extend = a.Extend ∧ b.BlockOfSize ∧
      b.Size = (if a.MaxId + 1 = a.Size then a.Size + a.Extend else a.Size) ∧
      b.elem (a.MaxId + 1) = some v ∧
      (∀ j : Int, 0 ≤ j → j ≤ a.MaxId → b.elem j = a.elem j) := by
  obtain ⟨b, hb, hv, hM, hEx, hBb, hS, hK⟩ :=
    InsertValue_some { a with MaxId := a.MaxId + 1 } fresh (a.MaxId + 1) v hB hE
      (by omega) (fun h => hA (by simp only [] at h; omega))
  simp only [max_self] at hM
  simp only [] at hS hEx
  refine ⟨b, ?_, hM, hEx, hBb, ?_, hv, ?_⟩
  · simp only [InsertNextValue, hb, hM]
  · by_cases hfull : a.MaxId + 1 = a.Size
    · rw [if_pos (by omega)] at hS
      rw [if_pos hfull, hS, hfull, sub_self]
      simp
    · rw [if_neg (by omega)] at hS
      rw [if_neg hfull, hS]
  · intro j hj0 hj1
    exact hK j hj0 (by simp only []; omega) (by omega)

end vlIntArray

end VTK

namespace VTK

/-! ## Facts about the modelled buffer ownership -/

namespace OwnedBuffer

/-- What `release` deallocates: nothing, or the owned block it holds. -/
theorem release_cases (b : OwnedBuffer) :
    (b.release = b) ∨
      (∃ p, b.data = some p ∧ b.ownership ≠ .BorrowedNoFree ∧
        b.release = { b with data := none, capacity := 0,
                             freed := (p, b.deletionMethod) :: b.freed }) := by
  unfold release
  cases hd : b.data with
  | none => exact Or.inl rfl
  | some p =>
    cases ho : b.ownership with
    | BorrowedNoFree => exact Or.inl rfl
    | OwnedAllocated => exact Or.inr ⟨p, rfl, by simp, rfl⟩
    | OwnedExternalRetained => exact Or.inr ⟨p, rfl, by simp, rfl⟩

/-- A release by a buffer that holds the block at `ptr` only as borrowed does
not deallocate `ptr`, and keeps the ownership tag. -/
theorem release_spares (b : OwnedBuffer) (ptr : Nat)
    (hinv : b.data = some ptr → b.ownership = .BorrowedNoFree) :
    (b.release.data = some ptr → b.release.ownership = .BorrowedNoFree) ∧
      b.release.ownership = b.ownership ∧ b.release.deletionMethod = b.deletionMethod ∧
      ∃ added, b.release.freedBlocks = added ++ b.freedBlocks ∧ ptr ∉ added := by
  rcases release_cases b with h | ⟨p, hd, ho, h⟩
  · rw [h]
    exact ⟨hinv, rfl, rfl, [], rfl, by simp⟩
  · rw [h]
    refine ⟨fun hx => by simp at hx, rfl, rfl, [p], by simp [freedBlocks], ?_⟩
    intro hmem
    simp only [List.mem_singleton] at hmem
    subst hmem
    exact ho (hinv hd)

end OwnedBuffer

/-- One step that avoids `ptr`, on a buffer that holds the block at `ptr` only
as borrowed, does not deallocate `ptr` and leaves such a buffer. -/
theorem BufferOp.apply_spares (op : BufferOp) (b : OwnedBuffer) (ptr : Nat)
    (hop : op.avoids ptr = true)
    (hinv : b.data = some ptr → b.ownership = .BorrowedNoFree) :
    ((op.apply b).data = some ptr → (op.apply b).ownership = .BorrowedNoFree) ∧
      ∃ added, (op.apply b).freedBlocks = added ++ b.freedBlocks ∧ ptr ∉ added := by
  obtain ⟨hr1, hr2, hr3, added, hadd, hnot⟩ := OwnedBuffer.release_spares b ptr hinv
  cases op with
  | release => exact ⟨hr1, added, hadd, hnot⟩
  | adopt pointer n retained dm =>
    simp only [BufferOp.avoids, decide_eq_true_eq] at hop
    simp only [BufferOp.apply, OwnedBuffer.adopt]
    refine ⟨fun hx => ?_, added, hadd, hnot⟩
    simp only [Option.some.injEq] at hx
    exact absurd hx hop
  | reallocate cog n fresh =>
    cases fresh with
    | none =>
      simp only [BufferOp.apply, OwnedBuffer.reallocate]
      exact ⟨hinv, [], rfl, by simp⟩
    | some blk =>
      simp only [BufferOp.avoids, decide_eq_true_eq] at hop
      simp only [BufferOp.apply, OwnedBuffer.reallocate]
      cases ho : b.ownership with
      | BorrowedNoFree =>
        simp only []
        cases cog with
        | false => exact ⟨hinv, [], rfl, by simp⟩
        | true =>
          refine ⟨fun hx => ?_, [], rfl, by simp⟩
          simp only [if_true, Option.some.injEq] at hx
          exact absurd hx hop
      | OwnedAllocated =>
        refine ⟨fun hx => ?_, added, hadd, hnot⟩
        simp only [Option.some.injEq] at hx
        exact absurd hx hop
      | OwnedExternalRetained =>
        refine ⟨fun hx => ?_, added, hadd, hnot⟩
        simp only [Option.some.injEq] at hx
        exact absurd hx hop

/-- A life that avoids `ptr`, started on a buffer that holds the block at `ptr`
only as borrowed, never deallocates `ptr`. -/
theorem runBuffer_spares (ptr : Nat) (ops : List BufferOp) :
    ∀ b : OwnedBuffer, (∀ op ∈ ops, op.avoids ptr = true) →
      (b.data = some ptr → b.ownership = .BorrowedNoFree) →
      ∃ added, (runBuffer b ops).freedBlocks = added ++ b.freedBlocks ∧ ptr ∉ added := by
  induction ops with
  | nil => intro b _ _; exact ⟨[], rfl, by simp⟩
  | cons op ops ih =>
    intro b hops hinv
    obtain ⟨hinv1, add1, hadd1, hnot1⟩ :=
      BufferOp.apply_spares op b ptr (hops op (by simp)) hinv
    obtain ⟨add2, hadd2, hnot2⟩ :=
      ih (op.apply b) (fun o ho => hops o (by simp [ho])) hinv1
    refine ⟨add2 ++ add1, ?_, ?_⟩
    · simp only [runBuffer]
      rw [hadd2, hadd1, List.append_assoc]
    · simp only [List.mem_append, not_or]
      exact ⟨hnot2, hnot1⟩

end VTK

namespace VTK

/-! ## Facts about runs of appends -/

theorem ceil_eq_of_mul_bounds (x e k : Int) (he : 1 ≤ e) (h1 : e * (k - 1) < x)
    (h2 : x ≤ e * k) : ⌈(x : ℚ) / (e : ℚ)⌉ = k := by
  have hpos : (0 : ℚ) < (e : ℚ) := by exact_mod_cast (show (0 : Int) < e by omega)
  rw [Int.ceil_eq_iff]
  constructor
  · rw [lt_div_iff₀ hpos]
    have hq : ((e * (k - 1) : Int) : ℚ) < (x : ℚ) := by exact_mod_cast h1
    push_cast at hq
    linarith
  · rw [div_le_iff₀ hpos]
    have hq : (x : ℚ) ≤ ((e * k : Int) : ℚ) := by exact_mod_cast h2
    push_cast at hq
    linarith

/-- A run of appends whose allocations succeed: the final capacity is the
initial one plus one increment per call that reached `Resize`, and that number
of calls is the least that makes room for the appended values. -/
theorem appendRun_spec (calls : List ((Nat → Int) × Int)) :
    ∀ a : vlIntArray, a.BlockOfSize → 1 ≤ a.Extend → -1 ≤ a.MaxId → a.MaxId < a.Size →
      ∃ (b : vlIntArray) (k : Nat), appendRun a calls = some (b, k) ∧ b.BlockOfSize ∧
        b.Extend = a.Extend ∧ b.MaxId = a.MaxId + calls.length ∧
        b.Size = a.Size + a.Extend * k ∧
        ((k = 0 ∧ a.MaxId + 1 + calls.length ≤ a.Size) ∨
          (1 ≤ k ∧ a.Size + a.Extend * ((k : Int) - 1) < a.MaxId + 1 + calls.length ∧
            a.MaxId + 1 + calls.length ≤ a.Size + a.Extend * k)) ∧
        (∀ j : Int, 0 ≤ j → j ≤ a.MaxId → b.elem j = a.elem j) ∧
        (∀ (i : Nat) (c : (Nat → Int) × Int), calls[i]? = some c →
          b.elem (a.MaxId + 1 + i) = some c.2) := by
  induction calls with
  | nil =>
    intro a hB _ _ hM1
    refine ⟨a, 0, rfl, hB, rfl, by simp, by simp, Or.inl ⟨rfl, by simp; omega⟩,
      fun _ _ _ => rfl, ?_⟩
    intro i c hc
    simp at hc
  | cons c cs ih =>
    intro a hB hE hM0 hM1
    obtain ⟨a1, hins, h1M, h1E, h1B, h1S, h1v, h1K⟩ :=
      vlIntArray.InsertNextValue_some a (some c.1) c.2 hB hE hM0 hM1 (fun _ => by simp)
    have h1lt : a1.MaxId < a1.Size := by
      rw [h1M, h1S]
      split <;> omega
    obtain ⟨b, k1, hrun, hbB, hbE, hbM, hbS, hcase, hold, hnew⟩ :=
      ih a1 h1B (by omega) (by omega) h1lt
    rw [h1E] at hbS hcase
    rw [h1M] at hbM hcase hold hnew
    have hlen : ((c :: cs).length : Int) = cs.length + 1 := by simp
    refine ⟨b, k1 + (if a.MaxId + 1 ≥ a.Size then 1 else 0), ?_, hbB, by rw [hbE, h1E],
      by rw [hbM, hlen]; ring, ?_, ?_, ?_, ?_⟩
    · simp only [appendRun, hins, hrun]
    · by_cases hfull : a.MaxId + 1 = a.Size
      · rw [if_pos hfull] at h1S
        rw [if_pos (by omega), hbS, h1S]
        push_cast
        ring
      · rw [if_neg hfull] at h1S
        rw [if_neg (by omega), hbS, h1S]
        simp
    · by_cases hfull : a.MaxId + 1 = a.Size
      · rw [if_pos hfull] at h1S
        rw [if_pos (by omega), hlen]
        rw [h1S] at hcase
        right
        rcases hcase with ⟨hk0, hroom⟩ | ⟨hk1, hlo, hhi⟩
        · subst hk0
          refine ⟨by omega, ?_, ?_⟩
          · simp only [zero_add, Nat.cast_one, sub_self, mul_zero, add_zero]
            omega
          · simp only [zero_add, Nat.cast_one, mul_one]
            omega
        · refine ⟨by omega, ?_, ?_⟩
          · push_cast
            have e1 : a.Extend * ((k1 : Int) + 1 - 1) = a.Extend * ((k1 : Int) - 1) + a.Extend := by
              ring
            rw [e1]
            omega
          · push_cast
            have e1 : a.Extend * ((k1 : Int) + 1) = a.Extend * (k1 : Int) + a.Extend := by ring
            rw [e1]
            omega
      · rw [if_neg hfull] at h1S
        rw [if_neg (by omega), hlen, add_zero]
        rw [h1S] at hcase
        rcases hcase with ⟨hk0, hroom⟩ | ⟨hk1, hlo, hhi⟩
        · exact Or.inl ⟨hk0, by omega⟩
        · exact Or.inr ⟨hk1, by omega, by omega⟩
    · intro j hj0 hj1
      rw [hold j hj0 (by omega), h1K j hj0 hj1]
    · intro i d hd
      cases i with
      | zero =>
        simp only [List.getElem?_cons_zero, Option.some.injEq] at hd
        subst hd
        simp only [CharP.cast_eq_zero, add_zero]
        rw [hold (a.MaxId + 1) (by omega) le_rfl]
        exact h1v
      | succ i =>
        simp only [List.getElem?_cons_succ] at hd
        have := hnew i d hd
        have e : a.MaxId + 1 + ((i + 1 : Nat) : Int) = a.MaxId + 1 + 1 + (i : Int) := by
          push_cast; ring
        rw [e]
        exact this

end VTK

namespace VTK

/-! ## Further facts about `operator+=` -/

/-- Every outcome of `operator+=`: only the receiver changes, its `MaxId` grows
by the logical length of the argument, and its capacity does not shrink. -/
theorem operatorPlusEq_post (s t : Store) (p q : Nat) (fresh : Option (Nat → Int))
    (hE : 1 ≤ (s p).Extend) (h : operatorPlusEq s p q fresh = some t) :
    (∀ r, r ≠ p → t r = s r) ∧ (t p).MaxId = (s p).MaxId + (s q).MaxId + 1 ∧
      (s p).Size ≤ (t p).Size ∧ (t p).Extend = (s p).Extend := by
  rw [operatorPlusEq_unfold] at h
  have hres : ∀ s1 : Store,
      (if (s p).Size ≤ (s p).MaxId + (s q).MaxId + 2 then
        (vlIntArray.Resize (s p) fresh ((s p).MaxId + (s q).MaxId + 2)).map
          (fun r => s.set p r.1)
      else some s) = some s1 →
      (∀ r, r ≠ p → s1 r = s r) ∧ (s1 p).MaxId = (s p).MaxId ∧
        (s1 p).Extend = (s p).Extend ∧ (s p).Size ≤ (s1 p).Size := by
    intro s1 hs1
    by_cases hc : (s p).Size ≤ (s p).MaxId + (s q).MaxId + 2
    · rw [if_pos hc] at hs1
      cases hR : (s p).Resize fresh ((s p).MaxId + (s q).MaxId + 2) with
      | none => rw [hR] at hs1; simp at hs1
      | some rp =>
        obtain ⟨r, ptr⟩ := rp
        rw [hR] at hs1
        simp only [Option.map_some', Option.some.injEq] at hs1
        subst hs1
        refine ⟨fun x hx => Store.set_ne _ _ _ _ hx, ?_⟩
        rw [Store.set_self]
        rcases vlIntArray.Resize_cases _ r fresh _ ptr hE hR with
          ⟨hra, _⟩ | ⟨hM, hEx, _, _, _, hg, _⟩
        · rw [hra]
          exact ⟨rfl, rfl, le_rfl⟩
        · have := hg hc
          exact ⟨hM, hEx, by omega⟩
    · rw [if_neg hc] at hs1
      simp only [Option.some.injEq] at hs1
      subst hs1
      exact ⟨fun _ _ => rfl, rfl, rfl, le_rfl⟩
  cases hR : (if (s p).Size ≤ (s p).MaxId + (s q).MaxId + 2 then
        (vlIntArray.Resize (s p) fresh ((s p).MaxId + (s q).MaxId + 2)).map
          (fun r => s.set p r.1)
      else some s) with
  | none => rw [hR] at h; simp at h
  | some s1 =>
    rw [hR] at h
    simp only [Option.some_bind] at h
    obtain ⟨hfr, hM1, hE1, hS1⟩ := hres s1 hR
    have hMq : (s1 q).MaxId = (s q).MaxId := by
      by_cases hqp : q = p
      · subst hqp; exact hM1
      · rw [hfr q hqp]
    cases hL : plusEqLoop p q ((s1 q).MaxId + 1).toNat 0 s1 with
    | none => rw [hL] at h; simp at h
    | some s2 =>
      rw [hL] at h
      simp only [Option.map_some', Option.some.injEq] at h
      obtain ⟨arr, hs2, _, _⟩ := plusEqLoop_shape p q _ _ _ _ hL
      have hs2p : s2 p = { s1 p with Array := arr } := by rw [hs2, Store.set_self]
      have hs2q : (s2 q).MaxId = (s1 q).MaxId := by
        by_cases hqp : q = p
        · subst hqp; rw [hs2p]
        · rw [hs2, Store.set_ne _ _ _ _ hqp]
      subst h
      refine ⟨fun r hr => ?_, ?_, ?_, ?_⟩
      · rw [Store.set_ne _ _ _ _ hr, hs2, Store.set_ne _ _ _ _ hr, hfr r hr]
      · rw [Store.set_self, hs2q, hs2p]
        simp only []
        rw [hMq, hM1]
        ring
      · rw [Store.set_self, hs2p]
        exact hS1
      · rw [Store.set_self, hs2p]
        exact hE1

end VTK

namespace VTK

/-! ## Claims on construction, copying and single calls of `vlIntArray` -/

/-- Claim C11, evaluated on the code. The copy constructor `vlIntArray(ia)`,
for `ia` with `0 <= MaxId < Size`, a block of `Size` cells and the allocation
succeeding, builds an array with the `MaxId`, `Size` and `Extend` of `ia` whose
element `i` equals that of `ia` only for `0 <= i < MaxId`: its loop stops at
`i < MaxId`, so the element at the last valid index `MaxId` is not copied and
holds whatever the fresh block held. -/
theorem C11_copy_constructor_stops_early (ia : vlIntArray) (f : Nat → Int)
    (hB : ia.BlockOfSize) (h0 : 0 ≤ ia.MaxId) (h1 : ia.MaxId < ia.Size) :
    ∃ c, vlIntArray.vlIntArrayCopy (some f) ia = some c ∧ c.MaxId = ia.MaxId ∧
      c.Size = ia.Size ∧ c.Extend = ia.Extend ∧
      (∀ i : Int, 0 ≤ i → i < ia.MaxId → ∃ x, ia.elem i = some x ∧ c.elem i = some x) ∧
      c.elem ia.MaxId = some (f ia.MaxId.toNat) := by
  have hS0 : 0 ≤ ia.Size := by omega
  have hdl := newArray_some_length f ia.Size hS0
  obtain ⟨arr, hcopy, _, _, hread, hrest⟩ :=
    copyCells_spec ia.Array ia.MaxId.toNat 0 0 (newArray (some f) ia.Size)
      le_rfl (by rw [hB.2]; omega) le_rfl (by omega)
  refine ⟨⟨arr, ia.Size, ia.MaxId, ia.Extend⟩, ?_, rfl, rfl, rfl, ?_, ?_⟩
  · simp only [vlIntArray.vlIntArrayCopy, hcopy]
  · intro i hi0 hi1
    obtain ⟨x, hx⟩ := Ptr.read_eq_some_of_lt ia.Array i hi0 (by rw [hB.2]; omega)
    refine ⟨x, hx, ?_⟩
    have := hread i hi0 (by omega)
    simp only [zero_add] at this
    simp only [vlIntArray.elem]
    rw [this]
    exact hx
  · simp only [vlIntArray.elem]
    rw [hrest ia.MaxId (Or.inr (by omega))]
    exact newArray_some_read f ia.Size ia.MaxId h0 h1

/-- Witness of C11: the copy of the full array `{10, 20}` has element 1 equal
to the 0 of the fresh block, not to 20. -/
theorem C11_copy_constructor_stops_early_witness :
    ∃ c, vlIntArray.vlIntArrayCopy zeroFresh fullArray = some c ∧ c.elem 1 = some 0 ∧
      fullArray.elem 1 = some 20 := by
  obtain ⟨c, hc, _, _, _, _, hlast⟩ :=
    C11_copy_constructor_stops_early fullArray (fun _ => 0) (by decide) (by decide) (by decide)
  exact ⟨c, hc, hlast, by decide⟩

/-- Counterexample to C13 as stated: on the full two-cell array, setting the
logical length to 5 with `SetMaxId(4)` leaves the logical length at 2 and the
capacity at 2. -/
theorem C13_SetMaxId_counterexample :
    (fullArray.SetMaxId (5 - 1)).MaxId + 1 = 2 ∧ (fullArray.SetMaxId (5 - 1)).Size = 2 ∧
      (fullArray.SetMaxId (5 - 1)).MaxId + 1 ≠ 5 ∧ ¬ (5 ≤ (fullArray.SetMaxId (5 - 1)).Size) := by
  decide

/-- Claim C13, amended. Setting the logical length: for every array and every
`n`, after `SetMaxId(n - 1)` the logical length `MaxId + 1` is `min(n, Size)`,
hence `n` whenever `n` does not exceed the capacity, and `Size`, `Extend` and
the backing block are unchanged: the capacity is never grown, a larger `n` is
clamped to `Size`. -/
theorem C13_SetMaxId_clamps (a : vlIntArray) (n : Int) :
    (a.SetMaxId (n - 1)).MaxId + 1 = min n a.Size ∧ (a.SetMaxId (n - 1)).Size = a.Size ∧
      (a.SetMaxId (n - 1)).Extend = a.Extend ∧ (a.SetMaxId (n - 1)).Array = a.Array := by
  refine ⟨?_, rfl, rfl, rfl⟩
  simp only [vlIntArray.SetMaxId]
  split <;> omega

/-- Claim C14, evaluated on the code. When the allocation fails, `Resize`
itself returns the null pointer and leaves the array as it was; but
`InsertValue(id, v)` with `id >= Size` ignores that result and goes on to write
`Array[id]`, outside the block, and `InsertNextValue(v)` on a full array has
already incremented `MaxId` and does the same: neither call returns with the
array unchanged. -/
theorem C14_no_atomicity_on_failure (a : vlIntArray)
    (hL : (a.Array.length : Int) ≤ a.Size) (hE : a.Extend ≠ 0) :
    (∀ id v : Int, a.Size ≤ id →
      a.Resize none id = some (a, .null) ∧ a.InsertValue none id v = none) ∧
    (∀ v : Int, a.MaxId + 1 = a.Size → a.InsertNextValue none v = none) := by
  constructor
  · intro id v hid
    refine ⟨vlIntArray.Resize_none a id hE, ?_⟩
    have hw := Ptr.write_eq_none_of_le a.Array id v (by omega)
    simp only [vlIntArray.InsertValue, if_pos (show id ≥ a.Size from hid),
      vlIntArray.Resize_none a id hE, Option.map_some', hw]
  · intro v hfull
    have hE1 : ({ a with MaxId := a.MaxId + 1 } : vlIntArray).Extend ≠ 0 := hE
    have hw := Ptr.write_eq_none_of_le a.Array (a.MaxId + 1) v (by omega)
    simp only [vlIntArray.InsertNextValue, vlIntArray.InsertValue,
      if_pos (show a.MaxId + 1 ≥ a.Size by omega),
      vlIntArray.Resize_none { a with MaxId := a.MaxId + 1 } (a.MaxId + 1) hE1,
      Option.map_some', hw]

/-- Witness of C14: the full two-cell array with a failing allocation. -/
theorem C14_no_atomicity_on_failure_witness :
    (∀ id v : Int, fullArray.Size ≤ id →
      fullArray.Resize none id = some (fullArray, .null) ∧
        fullArray.InsertValue none id v = none) ∧
    (∀ v : Int, fullArray.MaxId + 1 = fullArray.Size →
      fullArray.InsertNextValue none v = none) :=
  C14_no_atomicity_on_failure fullArray (by decide) (by decide)

/-- Counterexample to C15 as stated: `Initialize(5, 0)` and `Initialize(0, 4)`
both return the success value 1. -/
theorem C15_Initialize_counterexample :
    (fullArray.Initialize zeroFresh 5 0).2 = 1 ∧ (fullArray.Initialize zeroFresh 0 4).2 = 1 ∧
      (fullArray.Initialize zeroFresh 5 0).2 ≠ 0 ∧ (fullArray.Initialize zeroFresh 0 4).2 ≠ 0 := by
  decide

/-- Claim C15, amended. `Initialize(sz, ext)` does not reject non-positive
parameters, it replaces them: `Size` is `sz` when `sz > 0` and 1 otherwise; the
call returns 1 exactly when the allocation `new int[sz]` yields a block (so for
`sz = 0` too, and whatever `ext` is), with `Extend` equal to `ext` when
`ext > 0` and to 1 otherwise and `MaxId = -1`; it returns 0 exactly when that
allocation yields no block, as for every `sz < 0`, leaving `Array` null and
`Extend` and `MaxId` as they were. -/
theorem C15_Initialize_replaces (a : vlIntArray) (fresh : Option (Nat → Int)) (sz ext : Int) :
    ((a.Initialize fresh sz ext).2 = 1 ↔ (0 ≤ sz ∧ fresh ≠ none)) ∧
      ((a.Initialize fresh sz ext).2 = 0 ↔ (sz < 0 ∨ fresh = none)) ∧
      (a.Initialize fresh sz ext).1.Size = (if sz > 0 then sz else 1) ∧
      ((a.Initialize fresh sz ext).2 = 1 →
        (a.Initialize fresh sz ext).1.Extend = (if ext > 0 then ext else 1) ∧
        (a.Initialize fresh sz ext).1.MaxId = -1) ∧
      ((a.Initialize fresh sz ext).2 = 0 →
        (a.Initialize fresh sz ext).1.Array = .null ∧
        (a.Initialize fresh sz ext).1.Extend = a.Extend ∧
        (a.Initialize fresh sz ext).1.MaxId = a.MaxId) := by
  have h01 : (0 : Int) = 1 → False := by decide
  have h10 : (1 : Int) = 0 → False := by decide
  by_cases hblk : newArray fresh sz = .null
  · have hno : ¬ (0 ≤ sz ∧ fresh ≠ none) := fun h =>
      (newArray_ne_null_iff fresh sz).mpr h hblk
    have hor : sz < 0 ∨ fresh = none := by
      by_cases h0 : 0 ≤ sz
      · right
        by_contra hf
        exact hno ⟨h0, hf⟩
      · left; omega
    rw [vlIntArray.Initialize_of_null a fresh sz ext hblk]
    exact ⟨⟨fun h => (h01 h).elim, fun h => absurd h hno⟩, ⟨fun _ => hor, fun _ => rfl⟩,
      rfl, fun h => (h01 h).elim, fun _ => ⟨rfl, rfl, rfl⟩⟩
  · have hyes := (newArray_ne_null_iff fresh sz).mp hblk
    rw [vlIntArray.Initialize_of_block a fresh sz ext hblk]
    refine ⟨⟨fun _ => hyes, fun _ => rfl⟩, ⟨fun h => (h10 h).elim, fun h => ?_⟩,
      rfl, fun _ => ⟨rfl, rfl⟩, fun h => (h10 h).elim⟩
    rcases h with h | h
    · omega
    · exact absurd h hyes.2

/-- Claim C16. `Reset` is a lazy clear: for every array, after `Reset()` the
logical length is zero (`MaxId = -1`) while `Size`, `Extend` and the backing
block, hence every element, are exactly what they were. -/
theorem C16_Reset_lazy_clear (a : vlIntArray) :
    a.Reset.MaxId = -1 ∧ a.Reset.MaxId + 1 = 0 ∧ a.Reset.Size = a.Size ∧
      a.Reset.Extend = a.Extend ∧ a.Reset.Array = a.Array ∧
      ∀ k : Int, a.Reset.elem k = a.elem k :=
  ⟨rfl, rfl, rfl, rfl, rfl, fun _ => rfl⟩

/-- Claim C19, evaluated on the code. The constructor `vlIntArray(sz, ext)` and
a successful `Initialize(sz, ext)` record `Size = sz` and allocate `sz` cells
when `sz >= 1`, so the block holds exactly `Size` cells; but for `sz <= 0` they
record `Size = 1` while allocating with `new int[sz]`: the block has no cell,
and index 0, which is below `Size`, is outside it.  `Initialize(0, ext)` with a
successful allocation still returns 1. -/
theorem C19_block_of_recorded_size (a : vlIntArray) (f : Nat → Int) (sz ext : Int) :
    (1 ≤ sz → (vlIntArray.vlIntArray (some f) sz ext).BlockOfSize ∧
      (a.Initialize (some f) sz ext).2 = 1 ∧ (a.Initialize (some f) sz ext).1.BlockOfSize) ∧
    (sz ≤ 0 → (vlIntArray.vlIntArray (some f) sz ext).Size = 1 ∧
      (vlIntArray.vlIntArray (some f) sz ext).Array.length = 0 ∧
      (vlIntArray.vlIntArray (some f) sz ext).elem 0 = none ∧
      ¬ (vlIntArray.vlIntArray (some f) sz ext).BlockOfSize ∧
      (a.Initialize (some f) sz ext).1.Size = 1 ∧
      (a.Initialize (some f) sz ext).1.Array.length = 0 ∧
      ¬ (a.Initialize (some f) sz ext).1.BlockOfSize) ∧
    (sz = 0 → (a.Initialize (some f) sz ext).2 = 1) := by
  refine ⟨fun h => ?_, fun h => ?_, fun h => ?_⟩
  · have hne : newArray (some f) sz ≠ .null :=
      (newArray_ne_null_iff (some f) sz).mpr ⟨by omega, by simp⟩
    have hlen := newArray_some_length f sz (by omega)
    have hpos : sz > 0 := by omega
    rw [vlIntArray.Initialize_of_block a (some f) sz ext hne]
    refine ⟨⟨hne, ?_⟩, rfl, hne, ?_⟩
    · simp only [vlIntArray.vlIntArray, if_pos hpos]
      exact hlen
    · simp only [if_pos hpos]
      exact hlen
  · have hnp : ¬ sz > 0 := by omega
    have hlen : (newArray (some f) sz).length = 0 := by
      by_cases hneg : sz < 0
      · rw [newArray_neg _ sz hneg]; rfl
      · have hz : sz = 0 := by omega
        subst hz
        rfl
    have hread : (newArray (some f) sz).read 0 = none := by
      cases hq : (newArray (some f) sz).read 0 with
      | none => rfl
      | some x =>
        have := (Ptr.read_lt_of_eq_some _ 0 x hq).2
        rw [hlen] at this
        simp at this
    have hinit : (a.Initialize (some f) sz ext).1.Array = newArray (some f) sz ∧
        (a.Initialize (some f) sz ext).1.Size = 1 := by
      simp only [vlIntArray.Initialize, if_neg hnp]
      split <;> exact ⟨rfl, rfl⟩
    refine ⟨?_, ?_, ?_, ?_, hinit.2, by rw [hinit.1]; exact hlen, ?_⟩
    · simp only [vlIntArray.vlIntArray, if_neg hnp]
    · simp only [vlIntArray.vlIntArray]; exact hlen
    · simp only [vlIntArray.vlIntArray, vlIntArray.elem]; exact hread
    · intro hB
      have h2 := hB.2
      simp only [vlIntArray.vlIntArray, if_neg hnp] at h2
      rw [hlen] at h2
      simp at h2
    · intro hB
      have h2 := hB.2
      rw [hinit.1, hinit.2, hlen] at h2
      simp at h2
  · subst h
    rfl

/-- Witness of C19: `vlIntArray(0, 4)` and `Initialize(0, 4)` record one cell
and allocate none. -/
theorem C19_block_of_recorded_size_witness :
    (vlIntArray.vlIntArray zeroFresh 0 4).Size = 1 ∧
      (vlIntArray.vlIntArray zeroFresh 0 4).Array.length = 0 ∧
      (vlIntArray.vlIntArray zeroFresh 0 4).elem 0 = none ∧
      ¬ (vlIntArray.vlIntArray zeroFresh 0 4).BlockOfSize ∧
      (fullArray.Initialize zeroFresh 0 4).1.Size = 1 ∧
      (fullArray.Initialize zeroFresh 0 4).1.Array.length = 0 ∧
      ¬ (fullArray.Initialize zeroFresh 0 4).1.BlockOfSize :=
  (C19_block_of_recorded_size fullArray (fun _ => 0) 0 4).2.1 (by decide)

end VTK

namespace VTK

/-- Claim C20. `SetTupleValue` writes only its own tuple: for every width
`W >= 1`, in-range tuple index `t` and `W`-component tuple `v`,
`SetTupleValue(t, v)` leaves every buffer element at a flat index outside
`[t*W, t*W + W)` at its previous value, so that `GetTupleValue(u, out)` gives
what it gave before for every tuple index `u != t` and every caller block
`out`; `NumberOfComponents` and the other members are unchanged. -/
theorem C20_SetTupleValue_frame {α : Type} (a : vtkAoSDataArrayTemplate α) (t : Int)
    (v : List α) (hW : 1 ≤ a.NumberOfComponents) (ht : 0 ≤ t)
    (hr : t * a.NumberOfComponents + a.NumberOfComponents ≤ (a.Buffer.length : Int))
    (hv : (v.length : Int) = a.NumberOfComponents) :
    ∃ b, a.SetTupleValue t (.block v) = some b ∧
      b.NumberOfComponents = a.NumberOfComponents ∧ b.MaxId = a.MaxId ∧
      b.SaveUserArray = a.SaveUserArray ∧ b.DeleteMethod = a.DeleteMethod ∧
      b.Buffer.length = a.Buffer.length ∧
      (∀ j : Int, (j < t * a.NumberOfComponents ∨
          t * a.NumberOfComponents + a.NumberOfComponents ≤ j) →
        b.GetValue j = a.GetValue j) ∧
      (∀ (u : Int) (out : Ptr α), u ≠ t → b.GetTupleValue u out = a.GetTupleValue u out) := by
  obtain ⟨buf, hset, hbl, _, _, hrest⟩ :=
    vtkAoSDataArrayTemplate.SetTupleValue_some a t v (by omega) ht hr hv
  refine ⟨_, hset, rfl, rfl, rfl, rfl, hbl, ?_, ?_⟩
  · intro j hj
    exact hrest j hj
  · intro u out hu
    simp only [vtkAoSDataArrayTemplate.GetTupleValue, stdCopy]
    have hlt : ¬ (u * a.NumberOfComponents + a.NumberOfComponents
        < u * a.NumberOfComponents) := by omega
    rw [if_neg hlt, if_neg hlt]
    apply copyCells_congr
    intro k hk0 hk1
    have hn : (((u * a.NumberOfComponents + a.NumberOfComponents
        - u * a.NumberOfComponents).toNat : Nat) : Int) = a.NumberOfComponents := by
      have : u * a.NumberOfComponents + a.NumberOfComponents - u * a.NumberOfComponents
          = a.NumberOfComponents := by ring
      rw [this]
      omega
    rw [hn] at hk1
    apply hrest
    rcases lt_or_gt_of_ne hu with h | h
    · left
      have h1 : (u + 1) * a.NumberOfComponents ≤ t * a.NumberOfComponents :=
        mul_le_mul_of_nonneg_right (by omega) (by omega)
      have h2 : (u + 1) * a.NumberOfComponents
          = u * a.NumberOfComponents + a.NumberOfComponents := by ring
      omega
    · right
      have h1 : (t + 1) * a.NumberOfComponents ≤ u * a.NumberOfComponents :=
        mul_le_mul_of_nonneg_right (by omega) (by omega)
      have h2 : (t + 1) * a.NumberOfComponents
          = t * a.NumberOfComponents + a.NumberOfComponents := by ring
      omega

/-- Witness of C20: writing tuple 1 of the width-three example. -/
theorem C20_SetTupleValue_frame_witness :
    ∃ b, scenarioTuples.SetTupleValue 1 (.block [4, 5, 6]) = some b ∧
      b.NumberOfComponents = scenarioTuples.NumberOfComponents ∧
      b.MaxId = scenarioTuples.MaxId ∧
      b.SaveUserArray = scenarioTuples.SaveUserArray ∧
      b.DeleteMethod = scenarioTuples.DeleteMethod ∧
      b.Buffer.length = scenarioTuples.Buffer.length ∧
      (∀ j : Int, (j < 1 * scenarioTuples.NumberOfComponents ∨
          1 * scenarioTuples.NumberOfComponents + scenarioTuples.NumberOfComponents ≤ j) →
        b.GetValue j = scenarioTuples.GetValue j) ∧
      (∀ (u : Int) (out : Ptr Int), u ≠ 1 →
        b.GetTupleValue u out = scenarioTuples.GetTupleValue u out) :=
  C20_SetTupleValue_frame scenarioTuples 1 [4, 5, 6] (by decide) (by decide) (by decide)
    (by decide)

end VTK

namespace VTK

/-! ## Claim on buffer ownership -/

/-- Claim C17. Ownership discharge, on the buffer modelled from the
specification: after `SetArray(array, size, save, deleteMethod)` with
`save = 1`, that is `adopt` with the caller retaining responsibility, the
buffer holds the block `array` as Borrowed-NoFree, and through any later life
of reallocations (with or without copy-on-grow, succeeding or failing),
adoptions of other blocks and destruction, no deallocation of `array` is ever
added to the log of deallocations, provided the allocator hands out no block at
the address of `array` and `array` itself is not adopted again. -/
theorem C17_ownership_discharge (b0 : OwnedBuffer) (array : Nat) (size deleteMethod : Int)
    (ops : List BufferOp) (hops : ∀ op ∈ ops, op.avoids array = true) :
    (b0.adopt array size true deleteMethod).data = some array ∧
      (b0.adopt array size true deleteMethod).ownership = .BorrowedNoFree ∧
      ∃ added,
        (runBuffer (b0.adopt array size true deleteMethod) ops).freedBlocks =
          added ++ (b0.adopt array size true deleteMethod).freedBlocks ∧
        array ∉ added :=
  ⟨rfl, rfl, runBuffer_spares array ops (b0.adopt array size true deleteMethod) hops
    (fun _ => rfl)⟩

/-- Witness of C17: a buffer that adopts the caller's block at address 7, is
reallocated three times, adopts another block and is destroyed. -/
theorem C17_ownership_discharge_witness :
    (ownedBuffer.adopt 7 10 true 0).data = some 7 ∧
      (ownedBuffer.adopt 7 10 true 0).ownership = .BorrowedNoFree ∧
      ∃ added,
        (runBuffer (ownedBuffer.adopt 7 10 true 0) bufferLife).freedBlocks =
          added ++ (ownedBuffer.adopt 7 10 true 0).freedBlocks ∧
        7 ∉ added :=
  C17_ownership_discharge ownedBuffer 7 10 0 bufferLife (by decide)

end VTK

namespace VTK

/-! ## Claim on runs of appends -/

/-- Claim C18. Appends grow by the fixed increment: for every `s >= 1`,
`e >= 1` and every run of `N` consecutive `InsertNextValue` calls (their
allocations succeeding) on a freshly constructed `vlIntArray(s, e)`, the run
ends with `MaxId = N - 1`, the element at index `i` being the `(i+1)`-th
appended value, `Size` equal to `s` when `N <= s` and to
`s + e * ceil((N - s) / e)` otherwise, and `Resize` having been reached, each
time by an append that found the array full, exactly
`ceil(max(0, N - s) / e)` times. -/
theorem C18_appends_grow_by_increment (s e : Int) (f0 : Nat → Int)
    (calls : List ((Nat → Int) × Int)) (hs : 1 ≤ s) (he : 1 ≤ e) :
    ∃ (b : vlIntArray) (k : Nat),
      appendRun (vlIntArray.vlIntArray (some f0) s e) calls = some (b, k) ∧
      b.MaxId = (calls.length : Int) - 1 ∧
      (∀ (i : Nat) (c : (Nat → Int) × Int), calls[i]? = some c → b.elem i = some c.2) ∧
      b.Size = (if (calls.length : Int) ≤ s then s
        else s + e * ⌈(((calls.length : Int) - s : Int) : ℚ) / ((e : Int) : ℚ)⌉) ∧
      (k : Int) = ⌈((max 0 ((calls.length : Int) - s) : Int) : ℚ) / ((e : Int) : ℚ)⌉ := by
  have hpos : s > 0 := by omega
  have hepos : e > 0 := by omega
  have hSize : (vlIntArray.vlIntArray (some f0) s e).Size = s := by
    simp only [vlIntArray.vlIntArray, if_pos hpos]
  have hExt : (vlIntArray.vlIntArray (some f0) s e).Extend = e := by
    simp only [vlIntArray.vlIntArray, if_pos hepos]
  have hMax : (vlIntArray.vlIntArray (some f0) s e).MaxId = -1 := rfl
  have hB : (vlIntArray.vlIntArray (some f0) s e).BlockOfSize := by
    refine ⟨(newArray_ne_null_iff (some f0) s).mpr ⟨by omega, by simp⟩, ?_⟩
    rw [hSize]
    exact newArray_some_length f0 s (by omega)
  obtain ⟨b, k, hrun, _, _, hbM, hbS, hcase, _, hnew⟩ :=
    appendRun_spec calls (vlIntArray.vlIntArray (some f0) s e) hB (by rw [hExt]; exact he)
      (by rw [hMax]) (by rw [hMax, hSize]; omega)
  rw [hSize, hExt] at hbS hcase
  rw [hMax] at hbM hcase hnew
  refine ⟨b, k, hrun, by rw [hbM]; ring, ?_, ?_, ?_⟩
  · intro i c hc
    have := hnew i c hc
    simpa using this
  · rcases hcase with ⟨hk0, hroom⟩ | ⟨hk1, hlo, hhi⟩
    · subst hk0
      rw [if_pos (by omega), hbS]
      simp
    · have hk1i : (1 : Int) ≤ (k : Int) := by exact_mod_cast hk1
      have hnn : 0 ≤ e * ((k : Int) - 1) := mul_nonneg (by omega) (by omega)
      rw [if_neg (by omega), hbS,
        ceil_eq_of_mul_bounds ((calls.length : Int) - s) e k he (by omega) (by omega)]
  · rcases hcase with ⟨hk0, hroom⟩ | ⟨hk1, hlo, hhi⟩
    · subst hk0
      rw [max_eq_left (by omega)]
      simp
    · have hk1i : (1 : Int) ≤ (k : Int) := by exact_mod_cast hk1
      have hnn : 0 ≤ e * ((k : Int) - 1) := mul_nonneg (by omega) (by omega)
      rw [max_eq_right (by omega),
        ceil_eq_of_mul_bounds ((calls.length : Int) - s) e k he (by omega) (by omega)]

/-- Witness of C18: six appends on `vlIntArray(2, 3)`. -/
theorem C18_appends_grow_by_increment_witness :
    ∃ (b : vlIntArray) (k : Nat),
      appendRun (vlIntArray.vlIntArray (some (fun _ => 0)) 2 3) sixAppends = some (b, k) ∧
      b.MaxId = (sixAppends.length : Int) - 1 ∧
      (∀ (i : Nat) (c : (Nat → Int) × Int), sixAppends[i]? = some c → b.elem i = some c.2) ∧
      b.Size = (if (sixAppends.length : Int) ≤ 2 then 2
        else 2 + 3 * ⌈(((sixAppends.length : Int) - 2 : Int) : ℚ) / ((3 : Int) : ℚ)⌉) ∧
      (k : Int) = ⌈((max 0 ((sixAppends.length : Int) - 2) : Int) : ℚ) / ((3 : Int) : ℚ)⌉ :=
  C18_appends_grow_by_increment 2 3 (fun _ => 0) sixAppends (by decide) (by decide)

end VTK

namespace VTK

/-! ## Claim on the stated invariant -/

/-- Counterexample to C12 as stated: `Squeeze()` on the emptied one-cell array,
which satisfies `Size >= 1`, `Extend >= 1`, `-1 <= MaxId < Size`, sets `Size`
to 0; and `SetMaxId(-5)` on the one-element array sets `MaxId` to -5. -/
theorem C12_invariant_counterexample :
    emptiedArray.LegacyInvariant ∧
      (∃ b, emptiedArray.Squeeze zeroFresh = some b ∧ b.Size = 0 ∧ ¬ b.LegacyInvariant) ∧
      scenarioArray.LegacyInvariant ∧ (scenarioArray.SetMaxId (-5)).MaxId = -5 ∧
      ¬ (scenarioArray.SetMaxId (-5)).LegacyInvariant :=
  ⟨by decide, ⟨⟨.block [], 0, -1, 4⟩, by decide, by decide, by decide⟩, by decide, by decide,
    by decide⟩

/-- Claim C12, amended. From a store in which every object satisfies
`Size >= 1`, `Extend >= 1`, `-1 <= MaxId < Size` and has a block of at most
`Size` cells, any one call of `InsertValue`, `InsertNextValue`, `operator+=`,
`operator=`, `Squeeze`, `SetMaxId` or `Reset` that stays inside its blocks
leaves every object with `Size >= 0`, `Extend >= 1`, `MaxId < Size` and a block
of at most `Size` cells; `-1 <= MaxId` holds again unless the call is
`SetMaxId` with an argument below -1; and `Size >= 1` holds again unless the
call is `Squeeze` on an empty array. -/
theorem C12_invariant_kept (op : Op) (s t : Store)
    (hs : ∀ r, (s r).LegacyInvariant ∧ ((s r).Array.length : Int) ≤ (s r).Size)
    (h : op.apply s = some t) :
    ∀ r, (0 ≤ (t r).Size ∧ 1 ≤ (t r).Extend ∧ (t r).MaxId < (t r).Size ∧
        ((t r).Array.length : Int) ≤ (t r).Size) ∧
      ((∀ p id, op = .SetMaxId p id → -1 ≤ id) → -1 ≤ (t r).MaxId) ∧
      ((∀ p fresh, op = .Squeeze p fresh → 0 ≤ (s p).MaxId) → 1 ≤ (t r).Size) := by
  have hR : ∀ r, (s r).ReachInv := fun r =>
    ⟨by have := (hs r).1.1; omega, (hs r).1.2.1, by have := (hs r).1.2.2.2; omega, (hs r).2⟩
  have base := ReachInv_apply op s t hR h
  have hS1 : ∀ r, 1 ≤ (s r).Size := fun r => (hs r).1.1
  have hM0 : ∀ r, -1 ≤ (s r).MaxId := fun r => (hs r).1.2.2.1
  -- it is enough to bound the object the call acts on
  have lift : ∀ p : Nat, (∀ r, r ≠ p → t r = s r) →
      (((∀ p id, op = .SetMaxId p id → -1 ≤ id) → -1 ≤ (t p).MaxId) ∧
        ((∀ p fresh, op = .Squeeze p fresh → 0 ≤ (s p).MaxId) → 1 ≤ (t p).Size)) →
      ∀ r, (0 ≤ (t r).Size ∧ 1 ≤ (t r).Extend ∧ (t r).MaxId < (t r).Size ∧
          ((t r).Array.length : Int) ≤ (t r).Size) ∧
        ((∀ p id, op = .SetMaxId p id → -1 ≤ id) → -1 ≤ (t r).MaxId) ∧
        ((∀ p fresh, op = .Squeeze p fresh → 0 ≤ (s p).MaxId) → 1 ≤ (t r).Size) := by
    intro p hfr hp r
    obtain ⟨b0, b1, b2, b3⟩ := base r
    refine ⟨⟨b0, b1, by omega, b3⟩, ?_⟩
    by_cases hr : r = p
    · subst hr; exact hp
    · rw [hfr r hr]
      exact ⟨fun _ => hM0 r, fun _ => hS1 r⟩
  cases op with
  | InsertValue p fresh id i =>
    simp only [Op.apply] at h
    cases hI : (s p).InsertValue fresh id i with
    | none => rw [hI] at h; simp at h
    | some b =>
      rw [hI] at h
      simp only [Option.map_some', Option.some.injEq] at h
      subst h
      obtain ⟨h0, h1, _, h3⟩ := hR p
      obtain ⟨_, _, _, g3, _, g5⟩ := vlIntArray.InsertValue_post _ _ _ _ _ h0 h1 h3 hI
      apply lift p (fun r hr => Store.set_ne _ _ _ _ hr)
      rw [Store.set_self]
      have := hM0 p
      have := hS1 p
      exact ⟨fun _ => by rw [g5]; omega, fun _ => by omega⟩
  | InsertNextValue p fresh i =>
    simp only [Op.apply, vlIntArray.InsertNextValue] at h
    cases hI : vlIntArray.InsertValue { s p with MaxId := (s p).MaxId + 1 } fresh
        ((s p).MaxId + 1) i with
    | none => rw [hI] at h; simp at h
    | some b =>
      rw [hI] at h
      simp only [Option.map_some', Option.some.injEq] at h
      subst h
      obtain ⟨h0, h1, _, h3⟩ := hR p
      obtain ⟨_, _, _, g3, _, g5⟩ :=
        vlIntArray.InsertValue_post { s p with MaxId := (s p).MaxId + 1 } b fresh
          ((s p).MaxId + 1) i h0 h1 h3 hI
      simp only [max_self] at g5
      simp only [] at g3
      apply lift p (fun r hr => Store.set_ne _ _ _ _ hr)
      rw [Store.set_self]
      have := hM0 p
      have := hS1 p
      exact ⟨fun _ => by omega, fun _ => by omega⟩
  | PlusEq p q fresh =>
    simp only [Op.apply] at h
    obtain ⟨hfr, gM, gS, _⟩ := operatorPlusEq_post s t p q fresh (hR p).2.1 h
    apply lift p hfr
    have := hM0 p
    have := hM0 q
    have := hS1 p
    exact ⟨fun _ => by omega, fun _ => by omega⟩
  | Assign p q fresh =>
    simp only [Op.apply] at h
    by_cases hpq : p = q
    · subst hpq
      rw [operatorAssign_self] at h
      simp only [Option.some.injEq] at h
      subst h
      exact lift p (fun _ _ => rfl) ⟨fun _ => hM0 p, fun _ => hS1 p⟩
    · rw [operatorAssign_of_ne s p q fresh hpq] at h
      cases hC : copyCells (s q).Array ((s q).MaxId + 1).toNat 0 0
          (newArray fresh (s q).Size) with
      | none => rw [hC] at h; simp at h
      | some arr =>
        rw [hC] at h
        simp only [Option.map_some', Option.some.injEq] at h
        subst h
        apply lift p (fun r hr => Store.set_ne _ _ _ _ hr)
        rw [Store.set_self]
        exact ⟨fun _ => hM0 q, fun _ => hS1 q⟩
  | Squeeze p fresh =>
    simp only [Op.apply, vlIntArray.Squeeze] at h
    cases hRz : (s p).Resize fresh ((s p).MaxId + 1) with
    | none => rw [hRz] at h; simp at h
    | some rp =>
      obtain ⟨b, ptr⟩ := rp
      rw [hRz] at h
      simp only [Option.map_some', Option.some.injEq] at h
      subst h
      apply lift p (fun r hr => Store.set_ne _ _ _ _ hr)
      rw [Store.set_self]
      have := hM0 p
      have := hS1 p
      rcases vlIntArray.Resize_cases _ b fresh _ ptr (hR p).2.1 hRz with
        ⟨hra, _⟩ | ⟨hM, _, _, _, _, hg, hsh⟩
      · rw [hra]
        exact ⟨fun _ => hM0 p, fun _ => hS1 p⟩
      · refine ⟨fun _ => by omega, fun hne => ?_⟩
        have hne0 := hne p fresh rfl
        by_cases hc : (s p).Size ≤ (s p).MaxId + 1
        · have := hg hc; omega
        · have := hsh (by omega); omega
  | SetMaxId p id =>
    simp only [Op.apply, Option.some.injEq] at h
    subst h
    apply lift p (fun r hr => Store.set_ne _ _ _ _ hr)
    rw [Store.set_self]
    have := hS1 p
    refine ⟨fun harg => ?_, fun _ => hS1 p⟩
    have hid := harg p id rfl
    simp only [vlIntArray.SetMaxId]
    split <;> omega
  | Reset p =>
    simp only [Op.apply, Option.some.injEq] at h
    subst h
    apply lift p (fun r hr => Store.set_ne _ _ _ _ hr)
    rw [Store.set_self]
    exact ⟨fun _ => by simp [vlIntArray.Reset], fun _ => hS1 p⟩

/-- Witness of C12 (amended): appending the one-element array at address 1 to
the full array at address 0. -/
theorem C12_invariant_kept_witness :
    (Op.apply pairStore (.PlusEq 0 1 zeroFresh)).isSome = true ∧
      ∀ r, (0 ≤ (((Op.apply pairStore (.PlusEq 0 1 zeroFresh)).getD pairStore) r).Size ∧
          1 ≤ (((Op.apply pairStore (.PlusEq 0 1 zeroFresh)).getD pairStore) r).Extend ∧
          (((Op.apply pairStore (.PlusEq 0 1 zeroFresh)).getD pairStore) r).MaxId <
            (((Op.apply pairStore (.PlusEq 0 1 zeroFresh)).getD pairStore) r).Size ∧
          ((((Op.apply pairStore (.PlusEq 0 1 zeroFresh)).getD pairStore) r).Array.length : Int) ≤
            (((Op.apply pairStore (.PlusEq 0 1 zeroFresh)).getD pairStore) r).Size) ∧
        ((∀ p id, Op.PlusEq 0 1 zeroFresh = .SetMaxId p id → -1 ≤ id) →
          -1 ≤ (((Op.apply pairStore (.PlusEq 0 1 zeroFresh)).getD pairStore) r).MaxId) ∧
        ((∀ p fresh, Op.PlusEq 0 1 zeroFresh = .Squeeze p fresh → 0 ≤ (pairStore p).MaxId) →
          1 ≤ (((Op.apply pairStore (.PlusEq 0 1 zeroFresh)).getD pairStore) r).Size) :=
  ⟨by decide,
    C12_invariant_kept (.PlusEq 0 1 zeroFresh) pairStore
      ((Op.apply pairStore (.PlusEq 0 1 zeroFresh)).getD pairStore)
      (fun r => by unfold pairStore; split <;> decide)
      (eq_some_getD_of_isSome _ _ (by decide))⟩

end VTK

namespace VTK

/-! ## Claim on the length and the capacity of reachable states -/

/-- The call that follows the write agrees with `InsertValue` whenever the
write stays inside the block. -/
theorem InsertValueRaw_inside_iff (a b : vlIntArray) (fresh : Option (Nat → Int)) (id v : Int) :
    a.InsertValueRaw fresh id v = some (b, true) ↔ a.InsertValue fresh id v = some b := by
  unfold vlIntArray.InsertValueRaw vlIntArray.InsertValue
  simp only []
  cases (if id ≥ a.Size then (a.Resize fresh id).map Prod.fst else some a) with
  | none => simp
  | some s1 =>
    simp only [Ptr.writeRaw]
    cases hw : s1.Array.write id v with
    | none => simp
    | some q => simp

/-- `InsertValue(id, v)` with `id >= Size`, followed through its write, when
`Resize` gets no block. -/
theorem InsertValueRaw_failed_allocation (a : vlIntArray) (id v : Int)
    (hL : (a.Array.length : Int) ≤ a.Size) (hE : a.Extend ≠ 0) (hid : a.Size ≤ id) :
    a.InsertValueRaw none id v =
      some (if id > a.MaxId then { a with MaxId := id } else a, false) := by
  have hw := Ptr.write_eq_none_of_le a.Array id v (by omega)
  simp only [vlIntArray.InsertValueRaw, if_pos (show id ≥ a.Size from hid),
    vlIntArray.Resize_none a id hE, Option.map_some', Ptr.writeRaw, hw]

/-- Claim C2, evaluated on the code. Length exceeds capacity after a failed
allocation: on an array whose block has at most `Size` cells (as in every
state reached from the constructor), `InsertValue(id, v)` with `id >= Size`
whose `Resize` gets no block leaves `Size` as it was and sets `MaxId` to
`max(MaxId, id) >= Size`; and `InsertNextValue(v)` on a full array whose
`Resize` gets no block returns with `MaxId = Size`.  In both cases the store
`this->Array[id] = i` is outside the block and `MaxId + 1 <= Size` is false
after the call. -/
theorem C2_length_exceeds_capacity_after_failed_allocation (a : vlIntArray)
    (hL : (a.Array.length : Int) ≤ a.Size) (hE : a.Extend ≠ 0) :
    (∀ id v : Int, a.Size ≤ id →
      ∃ b, a.InsertValueRaw none id v = some (b, false) ∧ b.Size = a.Size ∧
        b.Array = a.Array ∧ b.MaxId = max a.MaxId id ∧ ¬ (b.MaxId + 1 ≤ b.Size)) ∧
    (∀ v : Int, a.MaxId + 1 = a.Size →
      ∃ b, a.InsertNextValueRaw none v = some (b, a.Size, false) ∧ b.Size = a.Size ∧
        b.Array = a.Array ∧ b.MaxId = a.Size ∧ ¬ (b.MaxId + 1 ≤ b.Size)) := by
  constructor
  · intro id v hid
    rw [InsertValueRaw_failed_allocation a id v hL hE hid]
    by_cases hgt : id > a.MaxId
    · rw [if_pos hgt]
      exact ⟨_, rfl, rfl, rfl, by simp only []; omega, by simp only []; omega⟩
    · rw [if_neg hgt]
      exact ⟨_, rfl, rfl, rfl, by omega, by omega⟩
  · intro v hfull
    have hraw := InsertValueRaw_failed_allocation { a with MaxId := a.MaxId + 1 }
      (a.MaxId + 1) v hL hE (by simp only []; omega)
    rw [if_neg (lt_irrefl _)] at hraw
    refine ⟨{ a with MaxId := a.MaxId + 1 }, ?_, rfl, rfl, hfull, ?_⟩
    · simp only [vlIntArray.InsertNextValueRaw, hraw]
      rw [hfull]
    · simp only []
      omega

/-- Witness of C2: two appends on `vlIntArray(2, 3)` reach the full array
`{10, 20}`; from there `InsertValue` at an index `>= 2`, or `InsertNextValue`,
with a failing allocation, leaves `MaxId + 1 > Size`. -/
theorem C2_length_exceeds_capacity_after_failed_allocation_witness :
    ((runOps twoCellStore fillOps).isSome = true ∧
      ((runOps twoCellStore fillOps).getD twoCellStore) 0 = fullArray) ∧
    (∀ id v : Int, fullArray.Size ≤ id →
      ∃ b, fullArray.InsertValueRaw none id v = some (b, false) ∧ b.Size = fullArray.Size ∧
        b.Array = fullArray.Array ∧ b.MaxId = max fullArray.MaxId id ∧
        ¬ (b.MaxId + 1 ≤ b.Size)) ∧
    (∀ v : Int, fullArray.MaxId + 1 = fullArray.Size →
      ∃ b, fullArray.InsertNextValueRaw none v = some (b, fullArray.Size, false) ∧
        b.Size = fullArray.Size ∧ b.Array = fullArray.Array ∧ b.MaxId = fullArray.Size ∧
        ¬ (b.MaxId + 1 ≤ b.Size)) :=
  ⟨⟨by decide, by decide⟩,
    C2_length_exceeds_capacity_after_failed_allocation fullArray (by decide) (by decide)⟩

end VTK
